import Mathlib

/-!
# bfstub: the memory-table editor, the boot sequence and the hypercall handler

A shallow embedding of the routines of `image.c` that read and rewrite the
`/memory` node's `reg` table and that read an image's extents, of the boot
sequence of `main.c`, of the hypercall handler of `exceptions.c`, of the string
and memory routines of `microlib.c` and of the cache routines of `cache.c`.

Conventions of the embedding.
* A `uint32_t` array is a `List Nat` of raw 32-bit words, as a little-endian
  CPU loads them; the device tree stores its cells big-endian, so a word is
  turned into its value by `fdt32_to_cpu` (a byte swap).
* `uint64_t` / `uintptr_t` values are `Nat`s; every operation that can leave
  the 64-bit range is reduced `% 2 ^ 64` where the C code wraps.
* A routine that writes `k` entries through a pointer and returns `k` is a
  function returning `k` together with the words it wrote.
* An out-argument is an `Option Nat`: `none` is a NULL pointer, `some v` a
  location that holds `v`; the routine returns the new content.
* Diagnostic output is part of the model only where a claim speaks of it
  (`handle_hypercall`, `launch_kernel`): there a routine also returns the list
  of its `printf` and `putc` calls.
* Memory is a function from addresses to bytes; an address is reduced
  `% 2 ^ 64`.
-/

namespace Bfstub

/-! ## Constants -/

/-- The value of `SUCCESS` in `microlib.h`. -/
def SUCCESS : Int := 0

/-- The value of `MAX_MEM_TABLE_ENTRIES` in `image.h`. -/
def MAX_MEM_TABLE_ENTRIES : Nat := 8

/-- Modelled from the spec: the error code of the external tree library for a
lookup that finds nothing (`FDT_ERR_NOTFOUND` of libfdt, whose header is not
among the sources). Only its being positive matters. -/
def FDT_ERR_NOTFOUND : Int := 1

/-- Modelled from the spec: the capacity error of the external tree library
(`FDT_ERR_NOSPACE` of libfdt). Only its being positive matters. -/
def FDT_ERR_NOSPACE : Int := 3

/-- Modelled from the spec: the bad-value error of the external tree library
(`FDT_ERR_BADVALUE` of libfdt). Only its being positive matters. -/
def FDT_ERR_BADVALUE : Int := 15

/-! ## Cells -/

/-- Modelled from the spec: the tree stores 32-bit big-endian cells, so on the
little-endian CPU `fdt32_to_cpu` reverses the four bytes of the word it is
given (the argument is truncated to 32 bits, as the library function takes a
`uint32_t`). -/
def fdt32_to_cpu (w : Nat) : Nat :=
  (w % 256) * 2 ^ 24 + (w / 2 ^ 8 % 256) * 2 ^ 16 + (w / 2 ^ 16 % 256) * 2 ^ 8 + w / 2 ^ 24 % 256

/-- Modelled from the spec: `cpu_to_fdt32` is the same byte reversal. -/
def cpu_to_fdt32 (v : Nat) : Nat :=
  fdt32_to_cpu v

/-- The word at index `i` of a `uint32_t` array. Every read the table routines
make lies inside the array; a read past its end yields 0 here. -/
def word (table : List Nat) (i : Nat) : Nat :=
  table.getD i 0

/-- Embedding of `image_location_from_devicetree`: the 64-bit quantity held in
the two cells at word index `i`. -/
def image_location_from_devicetree (metalocation : List Nat) (i : Nat) : Nat :=
  let high_word_cpu := fdt32_to_cpu (word metalocation i)
  let low_word_cpu := fdt32_to_cpu (word metalocation (i + 1))
  ((high_word_cpu <<< 32) % 2 ^ 64) ||| low_word_cpu

/-- Embedding of `image_size_from_devicetree`. -/
def image_size_from_devicetree (metasize : List Nat) (i : Nat) : Nat :=
  image_location_from_devicetree metasize i

/-- Embedding of `_from_mem_table_entry`: the pair `(addr, size)` of the entry
whose four cells start the array. -/
def _from_mem_table_entry (memory_table_entry : List Nat) : Nat × Nat :=
  let cpu_addr_high := fdt32_to_cpu (word memory_table_entry 0)
  let cpu_addr_low := fdt32_to_cpu (word memory_table_entry 1)
  let cpu_size_high := fdt32_to_cpu (word memory_table_entry 2)
  let cpu_size_low := fdt32_to_cpu (word memory_table_entry 3)
  (((cpu_addr_high <<< 32) % 2 ^ 64) ||| cpu_addr_low,
   ((cpu_size_high <<< 32) % 2 ^ 64) ||| cpu_size_low)

/-- Embedding of `_to_mem_table_entry`: the four cells it writes. -/
def _to_mem_table_entry (addr size : Nat) : List Nat :=
  let cpu_addr_high := addr >>> 32
  let cpu_addr_low := addr &&& 0xFFFFFFFF
  let cpu_size_high := size >>> 32
  let cpu_size_low := size &&& 0xFFFFFFFF
  [cpu_to_fdt32 cpu_addr_high, cpu_to_fdt32 cpu_addr_low,
   cpu_to_fdt32 cpu_size_high, cpu_to_fdt32 cpu_size_low]

/-! ## Splitting one entry -/

/-- Embedding of `copy_or_split_memory_table_entries`: the number of entries
generated and the cells written at `target_entry`. -/
def copy_or_split_memory_table_entries (source_entry : List Nat)
    (exclude_start exclude_end : Nat) : Nat × List Nat :=
  let source_entry_addr := (_from_mem_table_entry source_entry).1
  let source_entry_size := (_from_mem_table_entry source_entry).2
  let source_entry_end := (source_entry_addr + source_entry_size) % 2 ^ 64
  -- Case 1: a region before the exclusion region.
  let first : Nat × List Nat :=
    if source_entry_addr < exclude_start then
      let new_entry_end := min source_entry_end exclude_start
      let new_entry_size := (new_entry_end + 2 ^ 64 - source_entry_addr) % 2 ^ 64
      (1, _to_mem_table_entry source_entry_addr new_entry_size)
    else
      (0, [])
  -- Case 2: a region after the exclusion region.
  if source_entry_end > exclude_end then
    let new_entry_start := max source_entry_addr exclude_end
    let new_entry_size := (source_entry_end + 2 ^ 64 - new_entry_start) % 2 ^ 64
    (first.1 + 1, first.2 ++ _to_mem_table_entry new_entry_start new_entry_size)
  else
    first

/-! ## Scanning a table -/

/-- Embedding of `find_start_of_ram`: the loop runs over at most `entries`
entries starting at entry index `i`, carrying `start_of_ram`. -/
def find_start_of_ram_loop (memory_table : List Nat) : Nat → Nat → Nat → Nat
  | 0, _, start_of_ram => start_of_ram
  | entries + 1, i, start_of_ram =>
    let addr := (_from_mem_table_entry (memory_table.drop (i * 4))).1
    if addr = 0 then
      start_of_ram
    else
      find_start_of_ram_loop memory_table entries (i + 1) (min addr start_of_ram)

/-- Embedding of `find_start_of_ram`; the initial value is `-1ULL`. -/
def find_start_of_ram (memory_table : List Nat) (entries : Nat) : Nat :=
  find_start_of_ram_loop memory_table entries 0 (2 ^ 64 - 1)

/-! ## Rewriting the table -/

/-- The `for` loop of `update_fdt_to_exclude_memory`, from source entry `i`
with `remaining` entries to go: either the error code it returns, or the
target table and `target_memory_table_entries` at the end of the loop. -/
def rewrite_loop (source_memory_table : List Nat) (start_addr end_addr : Nat) :
    Nat → Nat → List Nat → Nat → Except Int (List Nat × Nat)
  | 0, _, target_memory_table, target_memory_table_entries =>
    .ok (target_memory_table, target_memory_table_entries)
  | remaining + 1, i, target_memory_table, target_memory_table_entries =>
    if target_memory_table_entries + 2 > MAX_MEM_TABLE_ENTRIES then
      .error (-FDT_ERR_NOSPACE)
    else
      let r := copy_or_split_memory_table_entries (source_memory_table.drop (i * 4))
        start_addr end_addr
      rewrite_loop source_memory_table start_addr end_addr remaining (i + 1)
        (target_memory_table.take (target_memory_table_entries * 4) ++ r.2)
        (target_memory_table_entries + r.1)

/-- The number of entries of a `reg` value of `len` bytes, as
`update_fdt_to_exclude_memory` computes it: `len / (sizeof(uint32_t) * 4)`. -/
def source_entries_of_len (len : Nat) : Nat :=
  len / (4 * 4)

/-- The rewrite that `update_fdt_to_exclude_memory` performs on the words of
the source `reg` value: the whole loop, from an empty target table. -/
def rewrite_memory_table (source_memory_table : List Nat) (start_addr end_addr : Nat) :
    Except Int (List Nat × Nat) :=
  rewrite_loop source_memory_table start_addr end_addr
    (source_entries_of_len (4 * source_memory_table.length)) 0 [] 0

/-- The appends of the `for` loop of `update_fdt_to_exclude_memory`, in the order it makes them:
the target table and `target_memory_table_entries` after each call of
`copy_or_split_memory_table_entries`, whether the loop then runs to its end or returns the
capacity error at a later entry. -/
def rewrite_loop_appends (source_memory_table : List Nat) (start_addr end_addr : Nat) :
    Nat → Nat → List Nat → Nat → List (List Nat × Nat)
  | 0, _, _, _ => []
  | remaining + 1, i, target_memory_table, target_memory_table_entries =>
    if target_memory_table_entries + 2 > MAX_MEM_TABLE_ENTRIES then
      []
    else
      let r := copy_or_split_memory_table_entries (source_memory_table.drop (i * 4))
        start_addr end_addr
      (target_memory_table.take (target_memory_table_entries * 4) ++ r.2,
          target_memory_table_entries + r.1)
        :: rewrite_loop_appends source_memory_table start_addr end_addr remaining (i + 1)
          (target_memory_table.take (target_memory_table_entries * 4) ++ r.2)
          (target_memory_table_entries + r.1)

/-- The appends of the whole loop, from an empty target table. -/
def rewrite_memory_table_appends (source_memory_table : List Nat) (start_addr end_addr : Nat) :
    List (List Nat × Nat) :=
  rewrite_loop_appends source_memory_table start_addr end_addr
    (source_entries_of_len (4 * source_memory_table.length)) 0 [] 0

/-- The part of the tree that `update_fdt_to_exclude_memory` touches.
`memory_node` is what the path lookup of `/memory` returns (an offset, or a
negative error code), `reg` the words of that node's `reg` property (`none`
when the property is missing) and `setprop_rc` the code the external library
returns for the write-back (0 when the tree buffer has room). -/
structure Fdt where
  memory_node : Int
  reg : Option (List Nat)
  setprop_rc : Int
deriving DecidableEq

/-- Modelled from the spec: the property replacement of the external tree
library, `fdt_setprop(fdt, node, "reg", val, len)`: on success the property's
value becomes the first `len` bytes of `val`. The lengths the caller passes are
multiples of 4, so the value is kept as words. -/
def fdt_setprop (fdt : Fdt) (val : List Nat) (len : Nat) : Int × Fdt :=
  if fdt.setprop_rc = 0 then
    (0, { fdt with reg := some (val.take (len / 4)) })
  else
    (fdt.setprop_rc, fdt)

/-- What a call of `update_fdt_to_exclude_memory` leaves behind. -/
structure UpdateResult where
  rc : Int
  fdt : Fdt
  out_start_of_ram : Option Nat
deriving DecidableEq

/-- Embedding of `update_fdt_to_exclude_memory`. -/
def update_fdt_to_exclude_memory (fdt : Fdt) (start_addr end_addr : Nat)
    (out_start_of_ram : Option Nat) : UpdateResult :=
  let memory_node := fdt.memory_node
  if memory_node < 0 then
    { rc := memory_node, fdt := fdt, out_start_of_ram := out_start_of_ram }
  else
    match fdt.reg with
    | none => { rc := -FDT_ERR_BADVALUE, fdt := fdt, out_start_of_ram := out_start_of_ram }
    | some source_memory_table =>
      match rewrite_memory_table source_memory_table start_addr end_addr with
      | .error e => { rc := e, fdt := fdt, out_start_of_ram := out_start_of_ram }
      | .ok (target_memory_table, target_memory_table_entries) =>
        let out :=
          match out_start_of_ram with
          | none => none
          | some _ => some (find_start_of_ram target_memory_table target_memory_table_entries)
        let w := fdt_setprop fdt target_memory_table (target_memory_table_entries * 4)
        if w.1 ≠ 0 then
          { rc := -w.1, fdt := w.2, out_start_of_ram := out }
        else
          { rc := SUCCESS, fdt := w.2, out_start_of_ram := out }

/-! ## Image extents -/

/-- Modelled from the spec: the property lookup of the external tree library,
`fdt_getprop(fdt, node, "reg", &len)`: the value and its length in bytes, or no
value and a negative error code when the property is absent. -/
def fdt_getprop (reg : Option (List Nat)) : List Nat × Int :=
  match reg with
  | some value => (value, 4 * (value.length : Int))
  | none => ([], -FDT_ERR_NOTFOUND)

/-- What a call of `get_image_extents` leaves behind. -/
structure ExtentsResult where
  rc : Int
  out_location : Option Nat
  out_size : Option Nat
deriving DecidableEq

/-- Embedding of `get_image_extents`; `reg` is the `reg` property of the image
node. The four cells are read whatever the length of the value. The embedding
holds the value only, not the bytes that follow it in the tree: it describes the
routine for an absent property, an empty value, and a value of four cells or
more; for a shorter value the cells the code reads past its end are not those
`word` yields. -/
def get_image_extents (reg : Option (List Nat)) (out_location out_size : Option Nat) :
    ExtentsResult :=
  let subimage_location := (fdt_getprop reg).1
  let subimage_location_size := (fdt_getprop reg).2
  if subimage_location_size ≤ 0 then
    { rc := -subimage_location_size, out_location := out_location, out_size := out_size }
  else
    { rc := SUCCESS
      out_location :=
        match out_location with
        | none => none
        | some _ => some (image_location_from_devicetree subimage_location 0)
      out_size :=
        match out_size with
        | none => none
        | some _ => some (image_size_from_devicetree subimage_location 2) }

/-- A table of cells from `(addr, size)` pairs, each written by
`_to_mem_table_entry`. -/
def table_of (entries : List (Nat × Nat)) : List Nat :=
  entries.flatMap fun e => _to_mem_table_entry e.1 e.2

/-- Entry `i` of a table, decoded by `_from_mem_table_entry`. -/
def entry_at (table : List Nat) (i : Nat) : Nat × Nat :=
  _from_mem_table_entry (table.drop (i * 4))

/-- The entries that `copy_or_split_memory_table_entries` generates for the
entry `(a, s)`, as `(addr, size)` pairs rather than cells. -/
def split_pieces (a s x y : Nat) : List (Nat × Nat) :=
  (if a < x then [(a, (min ((a + s) % 2 ^ 64) x + 2 ^ 64 - a) % 2 ^ 64)] else []) ++
  (if (a + s) % 2 ^ 64 > y then
    [(max a y, ((a + s) % 2 ^ 64 + 2 ^ 64 - max a y) % 2 ^ 64)] else [])

/-- The pieces generated for entry `i` of a table of cells. -/
def pieces_at (table : List Nat) (x y i : Nat) : List (Nat × Nat) :=
  split_pieces (entry_at table i).1 (entry_at table i).2 x y

/-- All the pieces generated for a source table, in source order. -/
def all_pieces (table : List Nat) (x y : Nat) : List (Nat × Nat) :=
  (List.range (source_entries_of_len (4 * table.length))).flatMap (pieces_at table x y)

/-- Address `p` lies in one of the first `entries` entries of `table`, an entry
`(start, size)` holding the addresses `start ≤ p < start + size`. -/
def covers (table : List Nat) (entries : Nat) (p : Nat) : Prop :=
  ∃ j, j < entries ∧ (entry_at table j).1 ≤ p ∧ p < (entry_at table j).1 + (entry_at table j).2

instance (table : List Nat) (entries p : Nat) : Decidable (covers table entries p) := by
  unfold covers; infer_instance

/-- The first `entries` entries of a table, decoded. -/
def entries_of (table : List Nat) (entries : Nat) : List (Nat × Nat) :=
  (List.range entries).map (entry_at table)

/-- The start addresses of the entries that precede the first sentinel `{0, 0}`. -/
def starts_before_sentinel (table : List Nat) (entries : Nat) : List Nat :=
  ((entries_of table entries).takeWhile (fun e => decide (e ≠ (0, 0)))).map Prod.fst

/-- The start addresses of all the entries other than the sentinel `{0, 0}`, as the
specification of `findLowestAddress` words it. -/
def non_sentinel_starts (table : List Nat) (entries : Nat) : List Nat :=
  ((entries_of table entries).filter (fun e => decide (e ≠ (0, 0)))).map Prod.fst

/-! ## Validating the tree, locating and launching the kernel (`image.c`, `main.c`) -/

/-- A call of one of the cache-maintenance routines of `cache.c`. -/
inductive CacheCall where
  | invalidate_cache_line (addr : Nat)
  | invalidate_cache_region (addr length : Nat)
deriving DecidableEq

/-- Embedding of `ensure_image_is_accessible`: the code it returns and the cache maintenance it
requests. The header check and the total size are those of the external tree library, taken as
parameters. -/
def ensure_image_is_accessible (fdt_check_header : Nat → Int) (fdt_totalsize : Nat → Nat)
    (image : Nat) : Int × List CacheCall :=
  let rc := fdt_check_header image
  if rc ≠ 0 then
    (rc, [.invalidate_cache_line image])
  else
    (SUCCESS, [.invalidate_cache_line image,
      .invalidate_cache_region image (fdt_totalsize image)])

/-- Embedding of `find_node`: it returns what the path lookup of the external tree library
returns, an offset or a negative error code. -/
def find_node (path_offset : Int) : Int :=
  path_offset

/-- Embedding of `find_image_verbosely`; `path_offset` is what the path lookup returns for
`path` and `reg` the `reg` property of the node found. The code of `get_image_extents` is
compared with `SUCCESS` only to print a message. -/
def find_image_verbosely (path_offset : Int) (reg : Option (List Nat))
    (out_kernel_location out_kernel_size : Option Nat) : ExtentsResult :=
  let kernel_node := find_node path_offset
  if kernel_node < 0 then
    { rc := -kernel_node, out_location := out_kernel_location, out_size := out_kernel_size }
  else
    let r := get_image_extents reg out_kernel_location out_kernel_size
    { rc := SUCCESS, out_location := r.out_location, out_size := r.out_size }

/-- The byte that memory holds at a 64-bit address. -/
def load_byte (mem : Nat → Nat) (addr : Nat) : Nat :=
  mem (addr % 2 ^ 64) % 256

/-- The `uint32_t` a little-endian CPU loads from `addr`. -/
def load_u32 (mem : Nat → Nat) (addr : Nat) : Nat :=
  load_byte mem addr + load_byte mem (addr + 1) * 2 ^ 8 + load_byte mem (addr + 2) * 2 ^ 16
    + load_byte mem (addr + 3) * 2 ^ 24

/-- The `uint64_t` a little-endian CPU loads from `addr`. -/
def load_u64 (mem : Nat → Nat) (addr : Nat) : Nat :=
  load_u32 mem addr + load_u32 mem (addr + 4) * 2 ^ 32

/-- Modelled from the spec: `memmove`, declared in `microlib.h` and exercised by the tests, has
no definition among the sources. The specification asks for move semantics: the `length` bytes
at the destination become the bytes the source held before the call, also when the two ranges
overlap, and nothing else changes; the destination is returned. -/
def memmove (mem : Nat → Nat) (dst0 src0 length : Nat) : Nat × (Nat → Nat) :=
  (dst0, fun a =>
    if (a % 2 ^ 64 + 2 ^ 64 - dst0 % 2 ^ 64) % 2 ^ 64 < length then
      mem ((src0 + (a % 2 ^ 64 + 2 ^ 64 - dst0 % 2 ^ 64) % 2 ^ 64) % 2 ^ 64)
    else
      mem a)

/-- Embedding of `relocate_kernel`: the address it returns and the memory it leaves. -/
def relocate_kernel (mem : Nat → Nat) (kernel size start_of_ram : Nat) : Nat × (Nat → Nat) :=
  let text_offset := load_u64 mem (kernel + 8)
  let load_addr := (start_of_ram + text_offset) % 2 ^ 64
  memmove mem load_addr kernel size

/-- One item of diagnostic output: a `printf` call with its format and its numeric arguments,
or a `putc` call. -/
inductive Out where
  | printf (fmt : String) (args : List Nat)
  | putc (c : Nat)
deriving DecidableEq

/-- What `launch_kernel` does: what it prints, the address it jumps to and the argument it
passes. -/
structure Launch where
  output : List Out
  target : Nat
  argument : Nat
deriving DecidableEq

/-- Embedding of `launch_kernel`. -/
def launch_kernel (mem : Nat → Nat) (kernel fdt : Nat) : Launch :=
  let warning : List Out :=
    if load_u32 mem (kernel + 14 * 4) ≠ 0x644d5241 then
      [.printf ("! WARNING: Kernel image has invalid magic (0x%x)\n") [kernel],
       .printf ("!          Attempting to boot anyways.\n") []]
    else
      []
  { output := warning ++ [.printf ("Launching hardware domain kernel...\n") []]
    target := kernel
    argument := fdt }

/-- Embedding of `exclude_el2_memory_from_fdt`; the two bounds are the addresses of the linker
symbols `lds_bfstub_start` and `lds_el2_bfstub_end`. -/
def exclude_el2_memory_from_fdt (fdt : Fdt) (lds_bfstub_start lds_el2_bfstub_end : Nat)
    (out_start_of_ram : Option Nat) : UpdateResult :=
  update_fdt_to_exclude_memory fdt lds_bfstub_start lds_el2_bfstub_end out_start_of_ram

/-- Why `panic` was entered. -/
inductive PanicReason where
  | more_privilege_than_expected
  | no_valid_device_tree
  | no_kernel_to_launch
  | could_not_exclude_memory
deriving DecidableEq

/-- How `main_el1` ends: in `panic`, which never returns, or in the jump of `launch_kernel`
to the relocated kernel. -/
inductive BootOutcome where
  | panicked (reason : PanicReason)
  | launched (kernel fdt : Nat)
deriving DecidableEq

/-- Everything `main_el1` reads: the exception level, the address of the tree, the answers of
the external tree library about it, the `/module@0` and `/memory` nodes, the linker symbols,
memory, and the values the uninitialised locals happen to hold. -/
structure BootEnv where
  el : Nat
  fdt : Nat
  fdt_check_header : Nat → Int
  fdt_totalsize : Nat → Nat
  module_offset : Int
  module_reg : Option (List Nat)
  memory : Fdt
  lds_bfstub_start : Nat
  lds_el2_bfstub_end : Nat
  mem : Nat → Nat
  kernel_location : Nat
  kernel_size : Nat
  start_of_ram : Nat

/-- Embedding of `load_device_tree`: `true` when it returns, `false` when it panics. -/
def load_device_tree (fdt_check_header : Nat → Int) (fdt_totalsize : Nat → Nat) (fdt : Nat) :
    Bool :=
  let rc := (ensure_image_is_accessible fdt_check_header fdt_totalsize fdt).1
  if rc ≠ SUCCESS then false else true

/-- Embedding of `main_el1`. Cache maintenance and diagnostic output are left out. -/
def main_el1 (env : BootEnv) : BootOutcome :=
  if env.el ≠ 1 then
    .panicked .more_privilege_than_expected
  else if load_device_tree env.fdt_check_header env.fdt_totalsize env.fdt = false then
    .panicked .no_valid_device_tree
  else
    let found := find_image_verbosely env.module_offset env.module_reg
      (some env.kernel_location) (some env.kernel_size)
    if found.rc ≠ 0 then
      .panicked .no_kernel_to_launch
    else
      let excluded := exclude_el2_memory_from_fdt env.memory env.lds_bfstub_start
        env.lds_el2_bfstub_end (some env.start_of_ram)
      if excluded.rc ≠ 0 then
        .panicked .could_not_exclude_memory
      else
        let kernel_location := found.out_location.getD env.kernel_location
        let kernel_size := found.out_size.getD env.kernel_size
        let start_of_ram := excluded.out_start_of_ram.getD env.start_of_ram
        let moved := relocate_kernel env.mem kernel_location kernel_size start_of_ram
        let jump := launch_kernel moved.2 moved.1 env.fdt
        .launched jump.target jump.argument

/-! ## The hypercall handler (`exceptions.c`) -/

/-- Modelled from the spec: the saved guest state of `exceptions.h`, which is not among the
sources: the registers `x0`..`x30`, the program counter, the processor state, the banked stack
pointers and exception registers of EL1, and the trap cause `esr_el2`. -/
structure GuestState where
  x : Nat → Nat
  pc : Nat
  cpsr : Nat
  sp_el0 : Nat
  sp_el1 : Nat
  elr_el1 : Nat
  spsr_el1 : Nat
  esr_el2 : Nat

/-- Modelled from the spec: the exception class, bits 31..26 of the trap cause. -/
def esr_ec (bits : Nat) : Nat :=
  bits / 2 ^ 26 % 2 ^ 6

/-- Modelled from the spec: the instruction-specific syndrome, bits 24..0 of the trap cause. -/
def esr_iss (bits : Nat) : Nat :=
  bits % 2 ^ 25

/-- Modelled from the spec: the exception class of an `hvc` issued by 64-bit code. -/
def HSR_EC_HVC64 : Nat := 0x16

/-- Embedding of `print_registers`. -/
def print_registers (regs : GuestState) : List Out :=
  ((List.range 15).flatMap fun k =>
    [.printf ("x%d:\t0x%p\t") [2 * k, regs.x (2 * k)],
     .printf ("x%d:\t0x%p\n") [2 * k + 1, regs.x (2 * k + 1)]])
  ++ [.printf ("x30:\t0x%p\n") [regs.x 30],
      .printf ("pc:\t0x%p\tcpsr:\t0x%p\n") [regs.pc, regs.cpsr],
      .printf ("sp_el1:\t0x%p\tsp_el0:\t0x%p\n") [regs.sp_el1, regs.sp_el0],
      .printf ("elr_el1:0x%p\tspsr_el1:0x%p\n") [regs.elr_el1, regs.spsr_el1]]

/-- Embedding of `handle_hvc`: the guest state it leaves and what it prints. The example
hypercall prints `x0` (as an `unsigned int`) characters of the string at address `x1`. -/
def handle_hvc (mem : Nat → Nat) (regs : GuestState) (call_number : Nat) :
    GuestState × List Out :=
  if call_number = 0x1234 then
    let chars_total := regs.x 0 % 2 ^ 32
    let string := regs.x 1
    (regs, (List.range chars_total).map fun i => .putc (load_byte mem (string + i)))
  else
    (regs,
      [.printf ("Got a HVC call from 64-bit code.\n") [],
       .printf ("Calling instruction was: hvc %d\n\n") [call_number],
       .printf ("Calling context (you can use these regs as hypercall args!):\n") []]
      ++ print_registers regs ++ [.printf ("\n\n") []])

/-- Embedding of `handle_hypercall`. -/
def handle_hypercall (mem : Nat → Nat) (regs : GuestState) : GuestState × List Out :=
  if esr_ec regs.esr_el2 = HSR_EC_HVC64 then
    let hvc_nr := esr_iss regs.esr_el2 &&& 0xFFFF
    handle_hvc mem regs hvc_nr
  else
    (regs,
      [.printf ("Unexpected hypercall! ESR=%p\n") [regs.esr_el2]]
      ++ print_registers regs ++ [.printf ("\n\n") []])

/-- The `printf` call by which `print_registers` shows register `x<i>`. -/
def register_line (regs : GuestState) (i : Nat) : Out :=
  if i = 30 then .printf ("x30:\t0x%p\n") [regs.x 30]
  else if i % 2 = 0 then .printf ("x%d:\t0x%p\t") [i, regs.x i]
  else .printf ("x%d:\t0x%p\n") [i, regs.x i]

/-! ## The Rule A / Rule B reference of the specification -/

/-- Rule A of the specification (prefix kept): if `span.start < x`, emit
`[span.start, min(span.end, x))`. A span is a pair `(start, end)`. -/
def rule_A (start stop x : Nat) : List (Nat × Nat) :=
  if start < x then [(start, min stop x)] else []

/-- Rule B of the specification (suffix kept): if `span.end > y`, emit
`[max(span.start, y), span.end)`. -/
def rule_B (start stop y : Nat) : List (Nat × Nat) :=
  if stop > y then [(max start y, stop)] else []

/-- The reference `splitEntry` of the specification: Rule A, then Rule B. -/
def splitEntry (start stop x y : Nat) : List (Nat × Nat) :=
  rule_A start stop x ++ rule_B start stop y

/-- The table entry `(start, size)` of a span `(start, end)`. -/
def entry_of_span (span : Nat × Nat) : Nat × Nat :=
  (span.1, span.2 - span.1)

/-! ## The string and memory routines (`microlib.c`) and the cache routines (`cache.c`)

Plain `char` is unsigned on the AArch64 target, so a `char` read is a byte `0..255`. An `int`
is 32 bits wide; C leaves the overflow of an `int` counter undefined, so a loop that counts with
an `int` takes the increment as a parameter. -/

/-- The value of `SIZE_MAX`. -/
def SIZE_MAX : Nat := 2 ^ 64 - 1

/-- The loop of `strnlen`, with `s` the current pointer and `n` the current count; `none`
when the fuel runs out before the loop ends. -/
def strnlen_loop (mem : Nat → Nat) (max : Nat) : Nat → Nat → Nat → Option Nat
  | 0, _, _ => none
  | fuel + 1, s, n =>
    if load_byte mem s ≠ 0 then
      if (n + 1) % 2 ^ 64 = max then
        some ((n + 1) % 2 ^ 64)
      else
        strnlen_loop mem max fuel ((s + 1) % 2 ^ 64) ((n + 1) % 2 ^ 64)
    else
      some n

/-- Embedding of `strnlen`. -/
def strnlen (mem : Nat → Nat) (fuel s max : Nat) : Option Nat :=
  strnlen_loop mem max fuel s 0

/-- Embedding of `strlen`. -/
def strlen (mem : Nat → Nat) (fuel s : Nat) : Option Nat :=
  strnlen mem fuel s SIZE_MAX

/-- The `size_t` an `int` converts to. -/
def int_to_size_t (i : Int) : Nat :=
  (i % 2 ^ 64).toNat

/-- An increment that wraps at 32 bits: one of the results a build may give `++i` on an `int`
that holds `INT_MAX`, where C leaves the result undefined. It is not taken for the code's; the
loops below take the increment as a parameter. -/
def wrapping_incr (i : Int) : Int :=
  (i + 1 + 2 ^ 31) % 2 ^ 32 - 2 ^ 31

/-- The loop of `memcmp` with its `int` counter `i`; `none` when the fuel runs out. `incr` is
what `++i` makes of the counter on the build at hand: C defines it as `i + 1` as long as that
fits an `int` and leaves the overflow at `INT_MAX` undefined, so the embedding does not fix
it. -/
def memcmp_loop (incr : Int → Int) (mem : Nat → Nat) (s1 s2 n : Nat) : Nat → Int → Option Int
  | 0, _ => none
  | fuel + 1, i =>
    if int_to_size_t i < n then
      if load_byte mem (s1 + int_to_size_t i) ≠ load_byte mem (s2 + int_to_size_t i) then
        some ((load_byte mem (s1 + int_to_size_t i) : Int)
          - (load_byte mem (s2 + int_to_size_t i) : Int))
      else
        memcmp_loop incr mem s1 s2 n fuel (incr i)
    else
      some 0

/-- Embedding of `memcmp`. -/
def memcmp (incr : Int → Int) (mem : Nat → Nat) (fuel s1 s2 n : Nat) : Option Int :=
  memcmp_loop incr mem s1 s2 n fuel 0

/-- The loop of `memchr` with its `int` counter `i`, incremented by `incr` as in
`memcmp_loop`; the pointer returned is an address, 0 for NULL; `none` when the fuel runs
out. -/
def memchr_loop (incr : Int → Int) (mem : Nat → Nat) (s c n : Nat) : Nat → Int → Option Nat
  | 0, _ => none
  | fuel + 1, i =>
    if int_to_size_t i < n then
      if load_byte mem (s + int_to_size_t i) = c % 256 then
        some ((s + int_to_size_t i) % 2 ^ 64)
      else
        memchr_loop incr mem s c n fuel (incr i)
    else
      some 0

/-- Embedding of `memchr`; `c` is the value of the `int` argument taken modulo `2 ^ 32`, of
which the cast keeps the low byte. -/
def memchr (incr : Int → Int) (mem : Nat → Nat) (fuel s c n : Nat) : Option Nat :=
  memchr_loop incr mem s c n fuel 0

/-- Memory after the byte `v` is stored at `addr`. -/
def store_byte (mem : Nat → Nat) (addr v : Nat) : Nat → Nat :=
  fun a => if a = addr % 2 ^ 64 then v % 256 else mem a

/-- The loop of `memcpy`, with `count` iterations to go from index `i` (a `size_t`, which
cannot pass `n`). -/
def memcpy_loop (dest src : Nat) : Nat → Nat → (Nat → Nat) → (Nat → Nat)
  | 0, _, mem => mem
  | count + 1, i, mem =>
    memcpy_loop dest src count (i + 1) (store_byte mem (dest + i) (load_byte mem (src + i)))

/-- Embedding of `memcpy`: the pointer it returns and the memory it leaves. -/
def memcpy (mem : Nat → Nat) (dest src n : Nat) : Nat × (Nat → Nat) :=
  (dest, memcpy_loop dest src n 0 mem)

/-- Memory that holds the bytes `bytes` from address `base` on and 0 elsewhere. -/
def bytes_at (base : Nat) (bytes : List Nat) : Nat → Nat :=
  fun a => if base ≤ a then bytes.getD (a - base) 0 else 0

/-- The string of `length` non-zero bytes at `s`, terminated by a NUL. -/
def is_string (mem : Nat → Nat) (s length : Nat) : Prop :=
  (∀ i, i < length → load_byte mem (s + i) ≠ 0) ∧ load_byte mem (s + length) = 0

/-- Embedding of `__dcache_line_bytes`: `line_bytes` is the value of its static variable,
`ctr_el0` the value of the register. -/
def __dcache_line_bytes (line_bytes ctr_el0 : Nat) : Nat :=
  if line_bytes ≠ 0 then
    line_bytes
  else
    ((1 <<< ((ctr_el0 >>> 16) &&& 0xf)) % 2 ^ 32 * 4) % 2 ^ 32

/-- The loop of `__invalidate_cache_region`: the addresses handed to
`__invalidate_cache_line`, in order; `none` when the fuel runs out. -/
def invalidate_loop (bytes_per_line end_addr : Nat) : Nat → Nat → Option (List Nat)
  | 0, _ => none
  | fuel + 1, addr =>
    if addr ≤ end_addr then
      (invalidate_loop bytes_per_line end_addr fuel ((addr + bytes_per_line) % 2 ^ 64)).map
        (fun rest => addr :: rest)
    else
      some []

/-- Embedding of `__invalidate_cache_region`, for a cache line of `bytes_per_line` bytes. -/
def __invalidate_cache_region (bytes_per_line fuel addr length : Nat) : Option (List Nat) :=
  invalidate_loop bytes_per_line ((addr + length) % 2 ^ 64) fuel addr

/-! ## Order of a table -/

/-- The first `entries` entries of a table are sorted by ascending start. -/
def sorted_by_start (table : List Nat) (entries : Nat) : Prop :=
  ∀ i j, i < j → j < entries → (entry_at table i).1 ≤ (entry_at table j).1

/-- No two of the first `entries` entries of a table share a byte address. -/
def non_overlapping (table : List Nat) (entries : Nat) : Prop :=
  ∀ i j, i < j → j < entries → ∀ p,
    ¬ ((entry_at table i).1 ≤ p ∧ p < (entry_at table i).1 + (entry_at table i).2
      ∧ (entry_at table j).1 ≤ p ∧ p < (entry_at table j).1 + (entry_at table j).2)

/-! ## Cells: byte order and the entry encoding -/

theorem fdt32_to_cpu_lt (w : Nat) : fdt32_to_cpu w < 2 ^ 32 := by
  unfold fdt32_to_cpu; omega

theorem bytes_join (b0 b1 b2 b3 : Nat) (h0 : b0 < 256) (h1 : b1 < 256) (h2 : b2 < 256)
    (h3 : b3 < 256) :
    fdt32_to_cpu (b0 * 2 ^ 24 + b1 * 2 ^ 16 + b2 * 2 ^ 8 + b3)
      = b3 * 2 ^ 24 + b2 * 2 ^ 16 + b1 * 2 ^ 8 + b0 := by
  unfold fdt32_to_cpu
  have e3 : (b0 * 2 ^ 24 + b1 * 2 ^ 16 + b2 * 2 ^ 8 + b3) % 256 = b3 := by omega
  have e2 : (b0 * 2 ^ 24 + b1 * 2 ^ 16 + b2 * 2 ^ 8 + b3) / 2 ^ 8 % 256 = b2 := by omega
  have e1 : (b0 * 2 ^ 24 + b1 * 2 ^ 16 + b2 * 2 ^ 8 + b3) / 2 ^ 16 % 256 = b1 := by omega
  have e0 : (b0 * 2 ^ 24 + b1 * 2 ^ 16 + b2 * 2 ^ 8 + b3) / 2 ^ 24 % 256 = b0 := by omega
  rw [e3, e2, e1, e0]

theorem fdt32_to_cpu_invol (w : Nat) : fdt32_to_cpu (fdt32_to_cpu w) = w % 2 ^ 32 := by
  have h := bytes_join (w % 256) (w / 2 ^ 8 % 256) (w / 2 ^ 16 % 256) (w / 2 ^ 24 % 256)
    (by omega) (by omega) (by omega) (by omega)
  have e : fdt32_to_cpu w = (w % 256) * 2 ^ 24 + (w / 2 ^ 8 % 256) * 2 ^ 16
      + (w / 2 ^ 16 % 256) * 2 ^ 8 + w / 2 ^ 24 % 256 := rfl
  have d2 : w / 2 ^ 16 = w / 2 ^ 8 / 2 ^ 8 := by rw [Nat.div_div_eq_div_mul]; norm_num
  have d3 : w / 2 ^ 24 = w / 2 ^ 16 / 2 ^ 8 := by rw [Nat.div_div_eq_div_mul]; norm_num
  have d4 : w / 2 ^ 32 = w / 2 ^ 24 / 2 ^ 8 := by rw [Nat.div_div_eq_div_mul]; norm_num
  rw [e, h]
  omega

theorem join64 (hi lo : Nat) (hhi : hi < 2 ^ 32) (hlo : lo < 2 ^ 32) :
    ((hi <<< 32) % 2 ^ 64) ||| lo = hi * 2 ^ 32 + lo := by
  rw [Nat.shiftLeft_eq, Nat.mod_eq_of_lt (by omega), Nat.mul_comm, Nat.mul_add_lt_is_or hlo]

theorem from_entry_cells (c0 c1 c2 c3 : Nat) (rest : List Nat) :
    _from_mem_table_entry (c0 :: c1 :: c2 :: c3 :: rest)
      = (fdt32_to_cpu c0 * 2 ^ 32 + fdt32_to_cpu c1, fdt32_to_cpu c2 * 2 ^ 32 + fdt32_to_cpu c3) := by
  simp only [_from_mem_table_entry, word, List.getD_cons_zero, List.getD_cons_succ]
  rw [join64 _ _ (fdt32_to_cpu_lt _) (fdt32_to_cpu_lt _),
    join64 _ _ (fdt32_to_cpu_lt _) (fdt32_to_cpu_lt _)]

theorem from_entry_lt (e : List Nat) :
    (_from_mem_table_entry e).1 < 2 ^ 64 ∧ (_from_mem_table_entry e).2 < 2 ^ 64 := by
  simp only [_from_mem_table_entry]
  rw [join64 _ _ (fdt32_to_cpu_lt _) (fdt32_to_cpu_lt _),
    join64 _ _ (fdt32_to_cpu_lt _) (fdt32_to_cpu_lt _)]
  have h0 := fdt32_to_cpu_lt (word e 0)
  have h1 := fdt32_to_cpu_lt (word e 1)
  have h2 := fdt32_to_cpu_lt (word e 2)
  have h3 := fdt32_to_cpu_lt (word e 3)
  omega

theorem from_to_entry (a s : Nat) (ha : a < 2 ^ 64) (hs : s < 2 ^ 64) (rest : List Nat) :
    _from_mem_table_entry (_to_mem_table_entry a s ++ rest) = (a, s) := by
  simp only [_to_mem_table_entry, List.cons_append, List.nil_append, from_entry_cells,
    cpu_to_fdt32, fdt32_to_cpu_invol, Nat.shiftRight_eq_div_pow]
  have e : (0xFFFFFFFF : Nat) = 2 ^ 32 - 1 := by norm_num
  rw [e, Nat.and_pow_two_sub_one_eq_mod, Nat.and_pow_two_sub_one_eq_mod]
  ext <;> simp <;> omega

theorem to_entry_length (a s : Nat) : (_to_mem_table_entry a s).length = 4 := rfl

theorem table_of_cons (p : Nat × Nat) (ps : List (Nat × Nat)) :
    table_of (p :: ps) = _to_mem_table_entry p.1 p.2 ++ table_of ps := by
  simp [table_of]

theorem table_of_append (ps qs : List (Nat × Nat)) :
    table_of (ps ++ qs) = table_of ps ++ table_of qs := by
  simp [table_of]

theorem table_of_length (ps : List (Nat × Nat)) : (table_of ps).length = ps.length * 4 := by
  induction ps with
  | nil => rfl
  | cons p ps ih => rw [table_of_cons, List.length_append, ih, to_entry_length, List.length_cons]; omega

theorem copy_or_split_eq (e : List Nat) (x y : Nat) :
    copy_or_split_memory_table_entries e x y
      = ((split_pieces (_from_mem_table_entry e).1 (_from_mem_table_entry e).2 x y).length,
         table_of (split_pieces (_from_mem_table_entry e).1 (_from_mem_table_entry e).2 x y)) := by
  unfold copy_or_split_memory_table_entries split_pieces
  by_cases h1 : (_from_mem_table_entry e).1 < x <;>
  by_cases h2 : ((_from_mem_table_entry e).1 + (_from_mem_table_entry e).2) % 2 ^ 64 > y <;>
  simp only [h1, h2, if_true, if_false] <;> rfl

/-! ## Tables of entries -/

theorem drop_table_of_cons (p : Nat × Nat) (ps : List (Nat × Nat)) (rest : List Nat) (j : Nat) :
    (table_of (p :: ps) ++ rest).drop ((j + 1) * 4) = (table_of ps ++ rest).drop (j * 4) := by
  rw [table_of_cons, List.append_assoc]
  have e : (j + 1) * 4 = (_to_mem_table_entry p.1 p.2).length + j * 4 := by
    rw [to_entry_length]; omega
  rw [e, List.drop_append]

theorem entry_at_table_of (ps : List (Nat × Nat)) (rest : List Nat)
    (hb : ∀ q ∈ ps, q.1 < 2 ^ 64 ∧ q.2 < 2 ^ 64) (j : Nat) (hj : j < ps.length) :
    entry_at (table_of ps ++ rest) j = ps.get ⟨j, hj⟩ := by
  induction ps generalizing j with
  | nil => simp at hj
  | cons p ps ih =>
    cases j with
    | zero =>
      have hp := hb p (List.mem_cons_self _ _)
      simp only [entry_at, Nat.zero_mul, List.drop_zero, table_of_cons, List.append_assoc]
      rw [from_to_entry p.1 p.2 hp.1 hp.2]
      rfl
    | succ j =>
      have hj2 : j < ps.length := by simpa using hj
      have := ih (fun q hq => hb q (List.mem_cons_of_mem _ hq)) j hj2
      simp only [entry_at] at this ⊢
      rw [drop_table_of_cons, this]
      rfl

theorem exists_entry_table_of (ps : List (Nat × Nat))
    (hb : ∀ q ∈ ps, q.1 < 2 ^ 64 ∧ q.2 < 2 ^ 64) (P : Nat × Nat → Prop) :
    (∃ j, j < ps.length ∧ P (entry_at (table_of ps) j)) ↔ ∃ q ∈ ps, P q := by
  constructor
  · rintro ⟨j, hj, h⟩
    have e := entry_at_table_of ps [] hb j hj
    rw [List.append_nil] at e
    exact ⟨ps.get ⟨j, hj⟩, List.get_mem _ _ _, e ▸ h⟩
  · rintro ⟨q, hq, h⟩
    obtain ⟨⟨j, hj⟩, rfl⟩ := List.get_of_mem hq
    have e := entry_at_table_of ps [] hb j hj
    rw [List.append_nil] at e
    exact ⟨j, hj, e ▸ h⟩

theorem split_pieces_lt (a s x y : Nat) (ha : a < 2 ^ 64) :
    ∀ q ∈ split_pieces a s x y, q.1 < 2 ^ 64 ∧ q.2 < 2 ^ 64 := by
  intro q hq
  unfold split_pieces at hq
  rw [List.mem_append] at hq
  rcases hq with hq | hq
  · split_ifs at hq with h1
    · simp only [List.mem_singleton] at hq
      subst hq
      exact ⟨ha, Nat.mod_lt _ (by norm_num)⟩
    · simp at hq
  · split_ifs at hq with h2
    · simp only [List.mem_singleton] at hq
      subst hq
      refine ⟨?_, Nat.mod_lt _ (by norm_num)⟩
      show max a y < 2 ^ 64
      have : (a + s) % 2 ^ 64 < 2 ^ 64 := Nat.mod_lt _ (by norm_num)
      omega
    · simp at hq

theorem split_pieces_length_le (a s x y : Nat) : (split_pieces a s x y).length ≤ 2 := by
  unfold split_pieces
  split_ifs <;> simp

/-! ## Splitting one entry: coverage -/

theorem split_pieces_cover (a s x y p : Nat) (h : a + s < 2 ^ 64) :
    (∃ q ∈ split_pieces a s x y, q.1 ≤ p ∧ p < q.1 + q.2)
      ↔ (a ≤ p ∧ p < a + s ∧ ¬ (x ≤ p ∧ p < y)) := by
  unfold split_pieces
  rw [Nat.mod_eq_of_lt h]
  by_cases h1 : a < x <;> by_cases h2 : a + s > y <;>
    simp only [h1, h2, if_true, if_false, List.append_nil, List.nil_append, List.singleton_append,
      List.mem_cons, List.mem_singleton, List.not_mem_nil, exists_eq_or_imp, exists_eq_left,
      false_and, exists_false, or_false, false_iff] <;> omega

/-- C1 (amended): for an entry that ends below the top of the 64-bit address space
(`addr + size < 2 ^ 64`) and any exclusion `[x, y)`, the addresses covered by the entries that
`copy_or_split_memory_table_entries` emits are exactly those of the entry that are not in the
exclusion. -/
theorem copy_or_split_covers (source_entry : List Nat) (x y p : Nat)
    (h : (_from_mem_table_entry source_entry).1 + (_from_mem_table_entry source_entry).2 < 2 ^ 64) :
    covers (copy_or_split_memory_table_entries source_entry x y).2
        (copy_or_split_memory_table_entries source_entry x y).1 p
      ↔ ((_from_mem_table_entry source_entry).1 ≤ p
          ∧ p < (_from_mem_table_entry source_entry).1 + (_from_mem_table_entry source_entry).2
          ∧ ¬ (x ≤ p ∧ p < y)) := by
  rw [copy_or_split_eq]
  unfold covers
  rw [exists_entry_table_of _ (split_pieces_lt _ _ x y (from_entry_lt source_entry).1)
    (fun q => q.1 ≤ p ∧ p < q.1 + q.2)]
  exact split_pieces_cover _ _ x y p h

theorem copy_or_split_covers_witness :
    (_from_mem_table_entry (table_of [(0x0, 0x40000000)])).1
        + (_from_mem_table_entry (table_of [(0x0, 0x40000000)])).2 < 2 ^ 64
      ∧ (covers (copy_or_split_memory_table_entries (table_of [(0x0, 0x40000000)])
            0x10000000 0x10100000).2
          (copy_or_split_memory_table_entries (table_of [(0x0, 0x40000000)])
            0x10000000 0x10100000).1 0x10100000
        ↔ ((_from_mem_table_entry (table_of [(0x0, 0x40000000)])).1 ≤ 0x10100000
          ∧ 0x10100000 < (_from_mem_table_entry (table_of [(0x0, 0x40000000)])).1
              + (_from_mem_table_entry (table_of [(0x0, 0x40000000)])).2
          ∧ ¬ (0x10000000 ≤ 0x10100000 ∧ 0x10100000 < 0x10100000))) :=
  ⟨by decide, copy_or_split_covers _ _ _ _ (by decide)⟩

/-- C1 (as stated) fails for a bank that ends at the top of the address space: the entry
`{0xFFFFFFFFFFFFF000, 0x1000}` with the exclusion `[0x100, 0x200)` yields no entry at all, so
the address `0xFFFFFFFFFFFFFFFF`, in the entry and outside the exclusion, is lost. -/
theorem copy_or_split_drops_top_entry :
    ¬ (covers (copy_or_split_memory_table_entries (table_of [(0xFFFFFFFFFFFFF000, 0x1000)])
            0x100 0x200).2
          (copy_or_split_memory_table_entries (table_of [(0xFFFFFFFFFFFFF000, 0x1000)])
            0x100 0x200).1 0xFFFFFFFFFFFFFFFF
        ↔ ((_from_mem_table_entry (table_of [(0xFFFFFFFFFFFFF000, 0x1000)])).1 ≤ 0xFFFFFFFFFFFFFFFF
          ∧ 0xFFFFFFFFFFFFFFFF < (_from_mem_table_entry (table_of [(0xFFFFFFFFFFFFF000, 0x1000)])).1
              + (_from_mem_table_entry (table_of [(0xFFFFFFFFFFFFF000, 0x1000)])).2
          ∧ ¬ (0x100 ≤ 0xFFFFFFFFFFFFFFFF ∧ 0xFFFFFFFFFFFFFFFF < 0x200))) := by
  decide

/-! ## The rewrite loop -/

theorem copy_or_split_length (e : List Nat) (x y : Nat) :
    (copy_or_split_memory_table_entries e x y).2.length
      = (copy_or_split_memory_table_entries e x y).1 * 4 := by
  rw [copy_or_split_eq]; exact table_of_length _

theorem copy_or_split_count_le (e : List Nat) (x y : Nat) :
    (copy_or_split_memory_table_entries e x y).1 ≤ 2 := by
  rw [copy_or_split_eq]; exact split_pieces_length_le _ _ _ _

theorem rewrite_loop_ok (src : List Nat) (x y : Nat) (rem i : Nat) (tgt : List Nat) (cnt : Nat)
    (t : List Nat) (c : Nat) (hlen : tgt.length = cnt * 4)
    (h : rewrite_loop src x y rem i tgt cnt = .ok (t, c)) :
    t = tgt ++ (List.range' i rem).flatMap
          (fun k => (copy_or_split_memory_table_entries (src.drop (k * 4)) x y).2)
      ∧ c = cnt + ((List.range' i rem).map
          (fun k => (copy_or_split_memory_table_entries (src.drop (k * 4)) x y).1)).sum
      ∧ (cnt ≤ MAX_MEM_TABLE_ENTRIES → c ≤ MAX_MEM_TABLE_ENTRIES) := by
  induction rem generalizing i tgt cnt with
  | zero =>
    simp only [rewrite_loop, Except.ok.injEq, Prod.mk.injEq] at h
    obtain ⟨rfl, rfl⟩ := h
    simp
  | succ rem ih =>
    rw [rewrite_loop] at h
    split_ifs at h with hcap
    have htake : tgt.take (cnt * 4) = tgt := by
      rw [← hlen]; exact List.take_length _
    rw [htake] at h
    have hlen2 : (tgt ++ (copy_or_split_memory_table_entries (src.drop (i * 4)) x y).2).length
        = (cnt + (copy_or_split_memory_table_entries (src.drop (i * 4)) x y).1) * 4 := by
      rw [List.length_append, hlen, copy_or_split_length]; omega
    obtain ⟨h1, h2, h3⟩ := ih (i + 1) _ _ hlen2 h
    have hle := copy_or_split_count_le (src.drop (i * 4)) x y
    refine ⟨?_, ?_, ?_⟩
    · rw [h1, List.range'_succ, List.flatMap_cons, List.append_assoc]
    · rw [h2, List.range'_succ, List.map_cons, List.sum_cons]; omega
    · intro _
      apply h3
      unfold MAX_MEM_TABLE_ENTRIES at hcap ⊢
      omega

theorem rewrite_loop_error (src : List Nat) (x y : Nat) (rem i : Nat) (tgt : List Nat) (cnt : Nat)
    (e : Int) (h : rewrite_loop src x y rem i tgt cnt = .error e) : e = -FDT_ERR_NOSPACE := by
  induction rem generalizing i tgt cnt with
  | zero => simp [rewrite_loop] at h
  | succ rem ih =>
    rw [rewrite_loop] at h
    split_ifs at h with hcap
    · simp only [Except.error.injEq] at h
      exact h.symm
    · exact ih _ _ _ h

theorem rewrite_ok (src : List Nat) (x y : Nat) (t : List Nat) (c : Nat)
    (h : rewrite_memory_table src x y = .ok (t, c)) :
    t = (List.range (source_entries_of_len (4 * src.length))).flatMap
          (fun k => (copy_or_split_memory_table_entries (src.drop (k * 4)) x y).2)
      ∧ c = ((List.range (source_entries_of_len (4 * src.length))).map
          (fun k => (copy_or_split_memory_table_entries (src.drop (k * 4)) x y).1)).sum
      ∧ c ≤ MAX_MEM_TABLE_ENTRIES := by
  unfold rewrite_memory_table at h
  obtain ⟨h1, h2, h3⟩ := rewrite_loop_ok src x y _ 0 [] 0 t c rfl h
  rw [← List.range_eq_range'] at h1 h2
  refine ⟨by simpa using h1, by simpa using h2, h3 (by unfold MAX_MEM_TABLE_ENTRIES; omega)⟩

theorem update_success (fdt : Fdt) (x y : Nat) (out : Option Nat)
    (h : (update_fdt_to_exclude_memory fdt x y out).rc = SUCCESS) :
    0 ≤ fdt.memory_node ∧ fdt.setprop_rc = 0 ∧
      ∃ src t c, fdt.reg = some src ∧ rewrite_memory_table src x y = .ok (t, c) := by
  unfold update_fdt_to_exclude_memory at h
  by_cases hn : fdt.memory_node < 0
  · simp only [hn, if_true] at h
    unfold SUCCESS at h
    omega
  · simp only [hn, if_false] at h
    cases hreg : fdt.reg with
    | none =>
      simp only [hreg] at h
      unfold SUCCESS FDT_ERR_BADVALUE at h
      omega
    | some src =>
      simp only [hreg] at h
      cases hrw : rewrite_memory_table src x y with
      | error e =>
        simp only [hrw] at h
        have := rewrite_loop_error _ _ _ _ _ _ _ _ hrw
        unfold SUCCESS at h
        unfold FDT_ERR_NOSPACE at this
        omega
      | ok r =>
        obtain ⟨t, c⟩ := r
        simp only [hrw] at h
        refine ⟨by omega, ?_, src, t, c, rfl, hrw⟩
        by_contra hs
        simp only [fdt_setprop, hs, if_false, ne_eq, not_false_eq_true, if_true] at h
        unfold SUCCESS at h
        omega

theorem length_flatMap_sum {α β : Type} (l : List α) (f : α → List β) :
    (l.flatMap f).length = (l.map (fun k => (f k).length)).sum := by
  induction l with
  | nil => rfl
  | cons a l ih => simp [ih]

theorem rewrite_ok_pieces (src : List Nat) (x y : Nat) (t : List Nat) (c : Nat)
    (h : rewrite_memory_table src x y = .ok (t, c)) :
    t = table_of (all_pieces src x y) ∧ c = (all_pieces src x y).length := by
  obtain ⟨h1, h2, _⟩ := rewrite_ok src x y t c h
  constructor
  · rw [h1, table_of, all_pieces, List.flatMap_assoc]
    congr 1
    funext k
    rw [copy_or_split_eq]
    rfl
  · rw [h2, all_pieces, length_flatMap_sum]
    congr 1
    apply List.map_congr_left
    intro k _
    rw [copy_or_split_eq]
    rfl

theorem all_pieces_lt (src : List Nat) (x y : Nat) :
    ∀ q ∈ all_pieces src x y, q.1 < 2 ^ 64 ∧ q.2 < 2 ^ 64 := by
  intro q hq
  simp only [all_pieces, List.mem_flatMap] at hq
  obtain ⟨k, _, hk⟩ := hq
  exact split_pieces_lt _ _ x y (from_entry_lt _).1 q hk

theorem split_pieces_avoid (a s x y : Nat) (h : a + s < 2 ^ 64) :
    ∀ q ∈ split_pieces a s x y, q.1 + q.2 ≤ x ∨ y ≤ q.1 := by
  intro q hq
  unfold split_pieces at hq
  rw [Nat.mod_eq_of_lt h, List.mem_append] at hq
  rcases hq with hq | hq
  · split_ifs at hq with h1
    · simp only [List.mem_singleton] at hq
      subst hq
      left
      show a + (min (a + s) x + 2 ^ 64 - a) % 2 ^ 64 ≤ x
      omega
    · simp at hq
  · split_ifs at hq with h2
    · simp only [List.mem_singleton] at hq
      subst hq
      right
      show y ≤ max a y
      omega
    · simp at hq

/-! ## Properties of the rewritten table -/

theorem update_success_state (fdt : Fdt) (x y : Nat) (out : Option Nat) (src t : List Nat) (c : Nat)
    (hn : 0 ≤ fdt.memory_node) (hreg : fdt.reg = some src)
    (hrw : rewrite_memory_table src x y = .ok (t, c)) (hs : fdt.setprop_rc = 0) :
    update_fdt_to_exclude_memory fdt x y out
      = { rc := SUCCESS
          fdt := { fdt with reg := some (t.take (c * 4 / 4)) }
          out_start_of_ram := out.map (fun _ => find_start_of_ram t c) } := by
  unfold update_fdt_to_exclude_memory
  have hn2 : ¬ fdt.memory_node < 0 := by omega
  simp only [hn2, if_false, hreg, hrw, fdt_setprop, hs, if_true, ne_eq, not_true_eq_false]
  cases out <;> rfl

/-- C2 (amended): when `update_fdt_to_exclude_memory` succeeds on a table none of whose entries
reaches the top of the 64-bit address space (`start + size < 2 ^ 64`), no entry of the table it
builds intersects the exclusion `[x, y)`: each has `start + size ≤ x` or `y ≤ start`. -/
theorem rewritten_entries_avoid_exclusion (fdt : Fdt) (x y : Nat) (out : Option Nat)
    (src : List Nat) (hreg : fdt.reg = some src)
    (hrc : (update_fdt_to_exclude_memory fdt x y out).rc = SUCCESS)
    (hno : ∀ i, i < source_entries_of_len (4 * src.length) →
      (entry_at src i).1 + (entry_at src i).2 < 2 ^ 64) :
    ∃ t c, rewrite_memory_table src x y = .ok (t, c) ∧
      ∀ j, j < c → (entry_at t j).1 + (entry_at t j).2 ≤ x ∨ y ≤ (entry_at t j).1 := by
  obtain ⟨_, _, src2, t, c, hreg2, hrw⟩ := update_success fdt x y out hrc
  rw [hreg] at hreg2
  obtain rfl : src = src2 := by simpa using hreg2
  refine ⟨t, c, hrw, ?_⟩
  obtain ⟨rfl, rfl⟩ := rewrite_ok_pieces src x y t c hrw
  intro j hj
  have e := entry_at_table_of (all_pieces src x y) [] (all_pieces_lt src x y) j hj
  rw [List.append_nil] at e
  rw [e]
  have hmem := List.get_mem (all_pieces src x y) j hj
  simp only [all_pieces, List.mem_flatMap, List.mem_range] at hmem
  obtain ⟨k, hk, hq⟩ := hmem
  exact split_pieces_avoid _ _ x y (hno k hk) _ hq

theorem rewritten_entries_avoid_exclusion_witness :
    (update_fdt_to_exclude_memory ⟨0, some (table_of [(0x0, 0x40000000)]), 0⟩
        0x10000000 0x10100000 none).rc = SUCCESS
      ∧ ∃ t c, rewrite_memory_table (table_of [(0x0, 0x40000000)]) 0x10000000 0x10100000
          = .ok (t, c) ∧
        ∀ j, j < c → (entry_at t j).1 + (entry_at t j).2 ≤ 0x10000000
          ∨ 0x10100000 ≤ (entry_at t j).1 :=
  ⟨by decide, rewritten_entries_avoid_exclusion ⟨0, some (table_of [(0x0, 0x40000000)]), 0⟩
    0x10000000 0x10100000 none (table_of [(0x0, 0x40000000)]) rfl (by decide) (by decide)⟩

/-- C2 (as stated) fails for a bank that ends at the top of the address space: the entry
`{0xFFFFFFFFFFFFF000, 0x1000}` is copied unchanged although it contains the exclusion
`[0xFFFFFFFFFFFFF800, 0xFFFFFFFFFFFFFC00)`. -/
theorem rewritten_entry_meets_exclusion :
    (update_fdt_to_exclude_memory ⟨0, some (table_of [(0xFFFFFFFFFFFFF000, 0x1000)]), 0⟩
        0xFFFFFFFFFFFFF800 0xFFFFFFFFFFFFFC00 none).rc = SUCCESS
      ∧ rewrite_memory_table (table_of [(0xFFFFFFFFFFFFF000, 0x1000)])
          0xFFFFFFFFFFFFF800 0xFFFFFFFFFFFFFC00
        = .ok (table_of [(0xFFFFFFFFFFFFF000, 0x1000)], 1)
      ∧ entry_at (table_of [(0xFFFFFFFFFFFFF000, 0x1000)]) 0 = (0xFFFFFFFFFFFFF000, 0x1000)
      ∧ ¬ (0xFFFFFFFFFFFFF000 + 0x1000 ≤ 0xFFFFFFFFFFFFF800
          ∨ 0xFFFFFFFFFFFFFC00 ≤ 0xFFFFFFFFFFFFF000) :=
  ⟨by decide, rfl, by decide, by decide⟩

/-- C3: when `update_fdt_to_exclude_memory` succeeds, the table it builds is the concatenation,
in source order, of the cells `copy_or_split_memory_table_entries` emits for each source entry,
and its entry count is the sum of the counts returned. -/
theorem update_builds_concatenation (fdt : Fdt) (x y : Nat) (out : Option Nat)
    (hrc : (update_fdt_to_exclude_memory fdt x y out).rc = SUCCESS) :
    ∃ src t c, fdt.reg = some src ∧ rewrite_memory_table src x y = .ok (t, c)
      ∧ t = (List.range (source_entries_of_len (4 * src.length))).flatMap
          (fun i => (copy_or_split_memory_table_entries (src.drop (i * 4)) x y).2)
      ∧ c = ((List.range (source_entries_of_len (4 * src.length))).map
          (fun i => (copy_or_split_memory_table_entries (src.drop (i * 4)) x y).1)).sum
      ∧ (update_fdt_to_exclude_memory fdt x y out).out_start_of_ram
          = out.map (fun _ => find_start_of_ram t c) := by
  obtain ⟨hn, hs, src, t, c, hreg, hrw⟩ := update_success fdt x y out hrc
  obtain ⟨h1, h2, _⟩ := rewrite_ok src x y t c hrw
  refine ⟨src, t, c, hreg, hrw, h1, h2, ?_⟩
  rw [update_success_state fdt x y out src t c hn hreg hrw hs]

theorem update_builds_concatenation_witness :
    (update_fdt_to_exclude_memory ⟨0, some (table_of [(0x0, 0x40000000)]), 0⟩
        0x10000000 0x10100000 (some 0)).rc = SUCCESS
      ∧ rewrite_memory_table (table_of [(0x0, 0x40000000)]) 0x10000000 0x10100000
        = .ok (table_of [(0x0, 0x10000000), (0x10100000, 0x2FF00000)], 2)
      ∧ ∃ src t c, some (table_of [(0x0, 0x40000000)]) = some src
        ∧ rewrite_memory_table src 0x10000000 0x10100000 = .ok (t, c)
        ∧ t = (List.range (source_entries_of_len (4 * src.length))).flatMap
            (fun i => (copy_or_split_memory_table_entries (src.drop (i * 4))
              0x10000000 0x10100000).2)
        ∧ c = ((List.range (source_entries_of_len (4 * src.length))).map
            (fun i => (copy_or_split_memory_table_entries (src.drop (i * 4))
              0x10000000 0x10100000).1)).sum
        ∧ (update_fdt_to_exclude_memory ⟨0, some (table_of [(0x0, 0x40000000)]), 0⟩
            0x10000000 0x10100000 (some 0)).out_start_of_ram
          = (some 0).map (fun _ => find_start_of_ram t c) :=
  ⟨by decide, rfl, update_builds_concatenation
    ⟨0, some (table_of [(0x0, 0x40000000)]), 0⟩ 0x10000000 0x10100000 (some 0) (by decide)⟩

/-! ## Capacity, failure paths and the write-back -/

theorem rewrite_loop_appends_within (src : List Nat) (x y : Nat) (rem i : Nat) (tgt : List Nat)
    (cnt : Nat) (hlen : tgt.length = cnt * 4) :
    ∀ s ∈ rewrite_loop_appends src x y rem i tgt cnt,
      s.2 ≤ MAX_MEM_TABLE_ENTRIES ∧ s.1.length = s.2 * 4 := by
  induction rem generalizing i tgt cnt with
  | zero =>
    intro s hs
    simp [rewrite_loop_appends] at hs
  | succ rem ih =>
    intro s hs
    rw [rewrite_loop_appends] at hs
    split_ifs at hs with hcap
    · simp at hs
    · have htake : tgt.take (cnt * 4) = tgt := by
        rw [← hlen]; exact List.take_length _
      rw [htake] at hs
      have hlen2 : (tgt ++ (copy_or_split_memory_table_entries (src.drop (i * 4)) x y).2).length
          = (cnt + (copy_or_split_memory_table_entries (src.drop (i * 4)) x y).1) * 4 := by
        rw [List.length_append, hlen, copy_or_split_length]; omega
      have hle := copy_or_split_count_le (src.drop (i * 4)) x y
      rcases List.mem_cons.mp hs with rfl | hs
      · refine ⟨?_, hlen2⟩
        show cnt + (copy_or_split_memory_table_entries (src.drop (i * 4)) x y).1
          ≤ MAX_MEM_TABLE_ENTRIES
        unfold MAX_MEM_TABLE_ENTRIES at hcap ⊢
        omega
      · exact ih (i + 1) _ _ hlen2 s hs

theorem rewrite_loop_appends_last (src : List Nat) (x y : Nat) (rem i : Nat) (tgt : List Nat)
    (cnt : Nat) (t : List Nat) (c : Nat)
    (h : rewrite_loop src x y rem i tgt cnt = .ok (t, c)) :
    ((tgt, cnt) :: rewrite_loop_appends src x y rem i tgt cnt).getLast? = some (t, c) := by
  induction rem generalizing i tgt cnt with
  | zero =>
    simp only [rewrite_loop, Except.ok.injEq, Prod.mk.injEq] at h
    obtain ⟨rfl, rfl⟩ := h
    simp [rewrite_loop_appends]
  | succ rem ih =>
    rw [rewrite_loop] at h
    rw [rewrite_loop_appends]
    split_ifs at h ⊢ with hcap
    rw [List.getLast?_cons_cons]
    exact ih _ _ _ h

theorem rewrite_loop_appends_length (src : List Nat) (x y : Nat) (rem i : Nat) (tgt : List Nat)
    (cnt : Nat) :
    (rewrite_loop_appends src x y rem i tgt cnt).length ≤ rem
      ∧ ((rewrite_loop_appends src x y rem i tgt cnt).length = rem
        ↔ ∃ r, rewrite_loop src x y rem i tgt cnt = .ok r) := by
  induction rem generalizing i tgt cnt with
  | zero => simp [rewrite_loop_appends, rewrite_loop]
  | succ rem ih =>
    rw [rewrite_loop_appends, rewrite_loop]
    split_ifs with hcap
    · simp
    · obtain ⟨h1, h2⟩ := ih (i + 1)
        (tgt.take (cnt * 4) ++ (copy_or_split_memory_table_entries (src.drop (i * 4)) x y).2)
        (cnt + (copy_or_split_memory_table_entries (src.drop (i * 4)) x y).1)
      simp only [List.length_cons]
      refine ⟨by omega, ?_⟩
      rw [← h2]
      omega

/-- C6: with the `/memory` node and its `reg` property present, `update_fdt_to_exclude_memory`
returns `-FDT_ERR_NOSPACE` whenever the entries the rewrite would produce number more than
`MAX_MEM_TABLE_ENTRIES`; whenever it succeeds, the table it built has at most
`MAX_MEM_TABLE_ENTRIES` entries and exactly four cells per entry; and on every run, also one
that ends in the capacity error, each append the loop makes leaves at most
`MAX_MEM_TABLE_ENTRIES` entries in the target table, four cells per entry, because the check
comes before the append. The appends are those of the loop: there are as many as source
entries exactly when the loop runs to its end, and then the last of them is the table built. -/
theorem update_respects_capacity (fdt : Fdt) (x y : Nat) (out : Option Nat) (src : List Nat)
    (hn : 0 ≤ fdt.memory_node) (hreg : fdt.reg = some src) :
    (MAX_MEM_TABLE_ENTRIES < ((List.range (source_entries_of_len (4 * src.length))).map
          (fun i => (copy_or_split_memory_table_entries (src.drop (i * 4)) x y).1)).sum →
        (update_fdt_to_exclude_memory fdt x y out).rc = -FDT_ERR_NOSPACE)
      ∧ ((update_fdt_to_exclude_memory fdt x y out).rc = SUCCESS →
        ∃ t c, rewrite_memory_table src x y = .ok (t, c)
          ∧ c ≤ MAX_MEM_TABLE_ENTRIES ∧ t.length = c * 4)
      ∧ (∀ s ∈ rewrite_memory_table_appends src x y,
          s.2 ≤ MAX_MEM_TABLE_ENTRIES ∧ s.1.length = s.2 * 4)
      ∧ ((rewrite_memory_table_appends src x y).length = source_entries_of_len (4 * src.length)
          ↔ ∃ r, rewrite_memory_table src x y = .ok r)
      ∧ (∀ t c, rewrite_memory_table src x y = .ok (t, c) →
          (([], 0) :: rewrite_memory_table_appends src x y).getLast? = some (t, c)) := by
  refine ⟨?_, ?_, ?_, ?_, ?_⟩
  · intro hmany
    cases hrw : rewrite_memory_table src x y with
    | error e =>
      have he := rewrite_loop_error _ _ _ _ _ _ _ _ hrw
      unfold update_fdt_to_exclude_memory
      have hn2 : ¬ fdt.memory_node < 0 := by omega
      simp only [hn2, if_false, hreg, hrw, he]
    | ok r =>
      obtain ⟨t, c⟩ := r
      obtain ⟨_, h2, h3⟩ := rewrite_ok src x y t c hrw
      omega
  · intro hrc
    obtain ⟨_, _, src2, t, c, hreg2, hrw⟩ := update_success fdt x y out hrc
    rw [hreg] at hreg2
    obtain rfl : src = src2 := by simpa using hreg2
    obtain ⟨_, _, h3⟩ := rewrite_ok src x y t c hrw
    obtain ⟨rfl, rfl⟩ := rewrite_ok_pieces src x y t c hrw
    exact ⟨_, _, hrw, h3, table_of_length _⟩
  · exact rewrite_loop_appends_within src x y _ 0 [] 0 rfl
  · exact (rewrite_loop_appends_length src x y _ 0 [] 0).2
  · intro t c hrw
    exact rewrite_loop_appends_last src x y _ 0 [] 0 t c hrw

theorem update_respects_capacity_witness :
    (0 : Int) ≤ 0
      ∧ (rewrite_memory_table_appends (table_of [(0, 9), (10, 9), (20, 9), (30, 9), (40, 9), (50, 9), (60, 9), (70, 9), (80, 9)]) 100 200).map Prod.snd = [1, 2, 3, 4, 5, 6, 7]
      ∧ (MAX_MEM_TABLE_ENTRIES < ((List.range (source_entries_of_len
            (4 * (table_of [(0, 9), (10, 9), (20, 9), (30, 9), (40, 9), (50, 9), (60, 9), (70, 9), (80, 9)]).length))).map
          (fun i => (copy_or_split_memory_table_entries
            ((table_of [(0, 9), (10, 9), (20, 9), (30, 9), (40, 9), (50, 9), (60, 9), (70, 9), (80, 9)]).drop (i * 4)) 100 200).1)).sum →
        (update_fdt_to_exclude_memory
          ⟨0, some (table_of [(0, 9), (10, 9), (20, 9), (30, 9), (40, 9), (50, 9), (60, 9), (70, 9), (80, 9)]), 0⟩ 100 200 none).rc
          = -FDT_ERR_NOSPACE)
      ∧ ((update_fdt_to_exclude_memory
          ⟨0, some (table_of [(0, 9), (10, 9), (20, 9), (30, 9), (40, 9), (50, 9), (60, 9), (70, 9), (80, 9)]), 0⟩ 100 200 none).rc
          = SUCCESS →
        ∃ t c, rewrite_memory_table (table_of [(0, 9), (10, 9), (20, 9), (30, 9), (40, 9), (50, 9), (60, 9), (70, 9), (80, 9)]) 100 200
            = .ok (t, c)
          ∧ c ≤ MAX_MEM_TABLE_ENTRIES ∧ t.length = c * 4)
      ∧ (∀ s ∈ rewrite_memory_table_appends (table_of [(0, 9), (10, 9), (20, 9), (30, 9), (40, 9), (50, 9), (60, 9), (70, 9), (80, 9)]) 100 200,
          s.2 ≤ MAX_MEM_TABLE_ENTRIES ∧ s.1.length = s.2 * 4)
      ∧ ((rewrite_memory_table_appends (table_of [(0, 9), (10, 9), (20, 9), (30, 9), (40, 9), (50, 9), (60, 9), (70, 9), (80, 9)]) 100 200).length
            = source_entries_of_len (4 * (table_of [(0, 9), (10, 9), (20, 9), (30, 9), (40, 9), (50, 9), (60, 9), (70, 9), (80, 9)]).length)
          ↔ ∃ r, rewrite_memory_table (table_of [(0, 9), (10, 9), (20, 9), (30, 9), (40, 9), (50, 9), (60, 9), (70, 9), (80, 9)]) 100 200 = .ok r)
      ∧ (∀ t c, rewrite_memory_table (table_of [(0, 9), (10, 9), (20, 9), (30, 9), (40, 9), (50, 9), (60, 9), (70, 9), (80, 9)]) 100 200 = .ok (t, c) →
          (([], 0) :: rewrite_memory_table_appends (table_of [(0, 9), (10, 9), (20, 9), (30, 9), (40, 9), (50, 9), (60, 9), (70, 9), (80, 9)]) 100 200).getLast? = some (t, c)) :=
  ⟨by decide, by decide, update_respects_capacity
    ⟨0, some (table_of [(0, 9), (10, 9), (20, 9), (30, 9), (40, 9), (50, 9), (60, 9), (70, 9), (80, 9)]), 0⟩ 100 200 none _
    (by decide) rfl⟩

/-- C7: when `update_fdt_to_exclude_memory` fails because the `/memory` node is missing, because
its `reg` property is missing, or because the capacity check of the loop fails, it returns a
code other than `SUCCESS`, leaves the tree as it was and does not write `*out_start_of_ram`. -/
theorem update_failure_writes_nothing (fdt : Fdt) (x y : Nat) (out : Option Nat)
    (h : fdt.memory_node < 0 ∨ fdt.reg = none
      ∨ ∃ src e, fdt.reg = some src ∧ rewrite_memory_table src x y = .error e) :
    (update_fdt_to_exclude_memory fdt x y out).rc ≠ SUCCESS
      ∧ (update_fdt_to_exclude_memory fdt x y out).fdt = fdt
      ∧ (update_fdt_to_exclude_memory fdt x y out).out_start_of_ram = out := by
  unfold update_fdt_to_exclude_memory
  by_cases hn : fdt.memory_node < 0
  · simp only [hn, if_true]
    refine ⟨?_, trivial, trivial⟩
    unfold SUCCESS
    omega
  · simp only [hn, if_false]
    rcases h with h | h | ⟨src, e, hreg, hrw⟩
    · exact absurd h hn
    · simp only [h]
      refine ⟨?_, trivial, trivial⟩
      unfold SUCCESS FDT_ERR_BADVALUE
      omega
    · simp only [hreg, hrw]
      refine ⟨?_, trivial, trivial⟩
      have he := rewrite_loop_error _ _ _ _ _ _ _ _ hrw
      rw [he]
      unfold SUCCESS FDT_ERR_NOSPACE
      omega

theorem update_failure_writes_nothing_witness :
    ((0 : Int) < 0
        ∨ some (table_of [(0, 9), (10, 9), (20, 9), (30, 9), (40, 9), (50, 9), (60, 9), (70, 9),
            (80, 9)]) = none
        ∨ ∃ src e, some (table_of [(0, 9), (10, 9), (20, 9), (30, 9), (40, 9), (50, 9), (60, 9),
            (70, 9), (80, 9)]) = some src
          ∧ rewrite_memory_table src 100 200 = .error e)
      ∧ (update_fdt_to_exclude_memory
          ⟨0, some (table_of [(0, 9), (10, 9), (20, 9), (30, 9), (40, 9), (50, 9), (60, 9),
            (70, 9), (80, 9)]), 0⟩ 100 200 (some 7)).rc ≠ SUCCESS
      ∧ (update_fdt_to_exclude_memory
          ⟨0, some (table_of [(0, 9), (10, 9), (20, 9), (30, 9), (40, 9), (50, 9), (60, 9),
            (70, 9), (80, 9)]), 0⟩ 100 200 (some 7)).fdt
        = ⟨0, some (table_of [(0, 9), (10, 9), (20, 9), (30, 9), (40, 9), (50, 9), (60, 9),
            (70, 9), (80, 9)]), 0⟩
      ∧ (update_fdt_to_exclude_memory
          ⟨0, some (table_of [(0, 9), (10, 9), (20, 9), (30, 9), (40, 9), (50, 9), (60, 9),
            (70, 9), (80, 9)]), 0⟩ 100 200 (some 7)).out_start_of_ram = some 7 :=
  ⟨Or.inr (Or.inr ⟨_, -FDT_ERR_NOSPACE, rfl, rfl⟩),
    update_failure_writes_nothing
      ⟨0, some (table_of [(0, 9), (10, 9), (20, 9), (30, 9), (40, 9), (50, 9), (60, 9),
        (70, 9), (80, 9)]), 0⟩ 100 200 (some 7)
      (Or.inr (Or.inr ⟨_, -FDT_ERR_NOSPACE, rfl, rfl⟩))⟩

/-- C5 (code at the failing input): for the table `[{0x0, 0x40000000}]` and the exclusion
`[0x10000000, 0x10100000)` the call succeeds and builds two entries, eight cells, yet the `reg`
value it writes back has only two cells (8 bytes, `entries * sizeof(uint32_t)`): the address of
the first entry and nothing else. -/
theorem update_writes_back_truncated_table :
    (update_fdt_to_exclude_memory ⟨0, some (table_of [(0x0, 0x40000000)]), 0⟩
        0x10000000 0x10100000 none).rc = SUCCESS
      ∧ rewrite_memory_table (table_of [(0x0, 0x40000000)]) 0x10000000 0x10100000
        = .ok (table_of [(0x0, 0x10000000), (0x10100000, 0x2FF00000)], 2)
      ∧ (table_of [(0x0, 0x10000000), (0x10100000, 0x2FF00000)]).length = 8
      ∧ (update_fdt_to_exclude_memory ⟨0, some (table_of [(0x0, 0x40000000)]), 0⟩
        0x10000000 0x10100000 none).fdt.reg = some [0, 0]
      ∧ (update_fdt_to_exclude_memory ⟨0, some (table_of [(0x0, 0x40000000)]), 0⟩
        0x10000000 0x10100000 none).fdt.reg
          ≠ some (table_of [(0x0, 0x10000000), (0x10100000, 0x2FF00000)]) :=
  ⟨by decide, rfl, by decide, by decide, by decide⟩

/-! ## Rewriting a rewritten table -/

theorem split_pieces_fixed (a s x y : Nat) (ha : a < 2 ^ 64) (hxy : x ≤ y) :
    ∀ q ∈ split_pieces a s x y, split_pieces q.1 q.2 x y = [q] := by
  intro q hq
  have hb : (a + s) % 2 ^ 64 < 2 ^ 64 := Nat.mod_lt _ (by norm_num)
  unfold split_pieces at hq
  rw [List.mem_append] at hq
  rcases hq with hq | hq
  · split_ifs at hq with h1
    · simp only [List.mem_singleton] at hq
      subst hq
      have e : (a + (min ((a + s) % 2 ^ 64) x + 2 ^ 64 - a) % 2 ^ 64) % 2 ^ 64
          = min ((a + s) % 2 ^ 64) x := by omega
      have h2 : ¬ min ((a + s) % 2 ^ 64) x > y := by omega
      simp only [split_pieces, e, h1, h2, if_true, if_false, List.append_nil, min_assoc, min_self]
    · simp at hq
  · split_ifs at hq with h2
    · simp only [List.mem_singleton] at hq
      subst hq
      have e : (max a y + ((a + s) % 2 ^ 64 + 2 ^ 64 - max a y) % 2 ^ 64) % 2 ^ 64
          = (a + s) % 2 ^ 64 := by omega
      have h1 : ¬ max a y < x := by omega
      simp only [split_pieces, e, h1, h2, if_true, if_false, List.nil_append, max_assoc, max_self]
    · simp at hq

theorem flatMap_range_singletons {α : Type} (ps : List α) (f : Nat → List α)
    (h : ∀ k (hk : k < ps.length), f k = [ps.get ⟨k, hk⟩]) :
    (List.range ps.length).flatMap f = ps := by
  induction ps using List.reverseRecOn with
  | nil => rfl
  | append_singleton ps p ih =>
    rw [List.length_append, List.length_singleton, List.range_succ, List.flatMap_append,
      List.flatMap_singleton]
    have hlast := h ps.length (by simp)
    rw [hlast]
    have hinit : (List.range ps.length).flatMap f = ps := by
      apply ih
      intro k hk
      rw [h k (by simp; omega)]
      simp [List.getElem_append_left hk]
    rw [hinit]
    simp

theorem pieces_at_table_of (ps : List (Nat × Nat)) (x y : Nat)
    (hb : ∀ q ∈ ps, q.1 < 2 ^ 64 ∧ q.2 < 2 ^ 64)
    (hfix : ∀ q ∈ ps, split_pieces q.1 q.2 x y = [q]) (k : Nat) (hk : k < ps.length) :
    pieces_at (table_of ps) x y k = [ps.get ⟨k, hk⟩] := by
  have e := entry_at_table_of ps [] hb k hk
  rw [List.append_nil] at e
  rw [pieces_at, e]
  exact hfix _ (List.get_mem _ _ _)

theorem entries_of_table_of (ps : List (Nat × Nat)) :
    source_entries_of_len (4 * (table_of ps).length) = ps.length := by
  rw [table_of_length, source_entries_of_len]
  omega

theorem all_pieces_table_of (ps : List (Nat × Nat)) (x y : Nat)
    (hb : ∀ q ∈ ps, q.1 < 2 ^ 64 ∧ q.2 < 2 ^ 64)
    (hfix : ∀ q ∈ ps, split_pieces q.1 q.2 x y = [q]) :
    all_pieces (table_of ps) x y = ps := by
  rw [all_pieces, entries_of_table_of]
  exact flatMap_range_singletons ps _ (pieces_at_table_of ps x y hb hfix)

theorem rewrite_loop_runs (src : List Nat) (x y : Nat) (rem i : Nat) (tgt : List Nat) (cnt : Nat)
    (h1 : ∀ k, i ≤ k → k < i + rem →
      (copy_or_split_memory_table_entries (src.drop (k * 4)) x y).1 = 1)
    (hcap : cnt + rem < MAX_MEM_TABLE_ENTRIES) :
    ∃ t, rewrite_loop src x y rem i tgt cnt = .ok (t, cnt + rem) := by
  induction rem generalizing i tgt cnt with
  | zero => exact ⟨tgt, rfl⟩
  | succ rem ih =>
    rw [rewrite_loop]
    have hc : ¬ cnt + 2 > MAX_MEM_TABLE_ENTRIES := by omega
    simp only [hc, if_false]
    rw [h1 i (le_refl i) (by omega)]
    have := ih (i + 1) (tgt.take (cnt * 4)
        ++ (copy_or_split_memory_table_entries (src.drop (i * 4)) x y).2) (cnt + 1)
      (fun k hk1 hk2 => h1 k (by omega) (by omega)) (by omega)
    obtain ⟨t, ht⟩ := this
    exact ⟨t, by rw [ht]; congr 2; omega⟩

/-- C4 (amended): for an exclusion `[x, y)` with `x ≤ y`, if the rewrite of
`update_fdt_to_exclude_memory` succeeds on a table with a result of fewer than
`MAX_MEM_TABLE_ENTRIES` entries, rewriting that result with the same exclusion succeeds and
yields exactly the same table and entry count. -/
theorem rewrite_again_is_noop (src : List Nat) (x y : Nat) (t : List Nat) (c : Nat)
    (hxy : x ≤ y) (h : rewrite_memory_table src x y = .ok (t, c))
    (hc : c < MAX_MEM_TABLE_ENTRIES) :
    rewrite_memory_table t x y = .ok (t, c) := by
  obtain ⟨rfl, rfl⟩ := rewrite_ok_pieces src x y t c h
  have hb := all_pieces_lt src x y
  have hfix : ∀ q ∈ all_pieces src x y, split_pieces q.1 q.2 x y = [q] := by
    intro q hq
    simp only [all_pieces, List.mem_flatMap] at hq
    obtain ⟨k, _, hk⟩ := hq
    exact split_pieces_fixed _ _ x y (from_entry_lt _).1 hxy q hk
  have hrun : ∃ t2, rewrite_memory_table (table_of (all_pieces src x y)) x y
      = .ok (t2, (all_pieces src x y).length) := by
    unfold rewrite_memory_table
    rw [entries_of_table_of]
    have := rewrite_loop_runs (table_of (all_pieces src x y)) x y (all_pieces src x y).length 0 [] 0
      (fun k _ hk => by
        have hk2 : k < (all_pieces src x y).length := by omega
        rw [copy_or_split_eq]
        have e := pieces_at_table_of (all_pieces src x y) x y hb hfix k hk2
        simp only [pieces_at, entry_at] at e
        simp only [e, List.length_singleton])
      (by omega)
    simpa using this
  obtain ⟨t2, ht2⟩ := hrun
  obtain ⟨e1, _⟩ := rewrite_ok_pieces _ x y t2 _ ht2
  rw [all_pieces_table_of _ x y hb hfix] at e1
  rw [ht2, e1]

theorem rewrite_again_is_noop_witness :
    (0x10000000 ≤ 0x10100000
      ∧ rewrite_memory_table (table_of [(0x0, 0x40000000)]) 0x10000000 0x10100000
        = .ok (table_of [(0x0, 0x10000000), (0x10100000, 0x2FF00000)], 2)
      ∧ 2 < MAX_MEM_TABLE_ENTRIES)
      ∧ rewrite_memory_table (table_of [(0x0, 0x10000000), (0x10100000, 0x2FF00000)])
          0x10000000 0x10100000
        = .ok (table_of [(0x0, 0x10000000), (0x10100000, 0x2FF00000)], 2) :=
  ⟨⟨by decide, rfl, by decide⟩,
    rewrite_again_is_noop (table_of [(0x0, 0x40000000)]) 0x10000000 0x10100000 _ 2
      (by decide) rfl (by decide)⟩

/-- C4 (as stated) fails when the result fills the table: seven banks of which the last is
split by the exclusion `[15, 16)` are rewritten to eight entries, and rewriting those eight
entries with the same exclusion is refused by the capacity check. -/
theorem rewrite_again_is_refused :
    (update_fdt_to_exclude_memory
        ⟨0, some (table_of [(0, 1), (2, 1), (4, 1), (6, 1), (8, 1), (10, 1), (12, 10)]), 0⟩
        15 16 none).rc = SUCCESS
      ∧ rewrite_memory_table
          (table_of [(0, 1), (2, 1), (4, 1), (6, 1), (8, 1), (10, 1), (12, 10)]) 15 16
        = .ok (table_of [(0, 1), (2, 1), (4, 1), (6, 1), (8, 1), (10, 1), (12, 3), (16, 6)], 8)
      ∧ rewrite_memory_table
          (table_of [(0, 1), (2, 1), (4, 1), (6, 1), (8, 1), (10, 1), (12, 3), (16, 6)]) 15 16
        = .error (-FDT_ERR_NOSPACE) :=
  ⟨by decide, rfl, rfl⟩

theorem rewrite_again_differs_for_inverted_exclusion :
    rewrite_memory_table (table_of [(0, 10)]) 8 2 = .ok (table_of [(0, 8), (2, 8)], 2)
      ∧ rewrite_memory_table (table_of [(0, 8), (2, 8)]) 8 2
        = .ok (table_of [(0, 8), (2, 6), (2, 6), (2, 8)], 4) :=
  ⟨rfl, rfl⟩

/-! ## The start of RAM -/

theorem find_start_of_ram_loop_eq (table : List Nat) (rem i acc : Nat)
    (h : ∀ k, i ≤ k → k < i + rem → (entry_at table k).1 = 0 → (entry_at table k).2 = 0) :
    find_start_of_ram_loop table rem i acc
      = ((((List.range' i rem).map (entry_at table)).takeWhile
          (fun e => decide (e ≠ (0, 0)))).map Prod.fst).foldl min acc := by
  induction rem generalizing i acc with
  | zero => rfl
  | succ rem ih =>
    rw [find_start_of_ram_loop, List.range'_succ, List.map_cons]
    by_cases h0 : (entry_at table i).1 = 0
    · have h1 := h i (le_refl i) (by omega) h0
      have he : entry_at table i = (0, 0) := Prod.ext h0 h1
      have h0' : (_from_mem_table_entry (table.drop (i * 4))).1 = 0 := h0
      simp [h0', he]
    · have he : entry_at table i ≠ (0, 0) := fun hc => h0 (by rw [hc])
      have h0' : ¬ (_from_mem_table_entry (table.drop (i * 4))).1 = 0 := h0
      simp only [h0', if_false]
      rw [ih (i + 1) _ (fun k hk1 hk2 => h k (by omega) (by omega))]
      rw [List.takeWhile_cons_of_pos (by simpa using he), List.map_cons, List.foldl_cons,
        min_comm]
      rfl

theorem foldl_min_le (l : List Nat) (acc : Nat) :
    l.foldl min acc ≤ acc ∧ ∀ s ∈ l, l.foldl min acc ≤ s := by
  induction l generalizing acc with
  | nil => simp
  | cons a l ih =>
    rw [List.foldl_cons]
    obtain ⟨h1, h2⟩ := ih (min acc a)
    refine ⟨le_trans h1 (min_le_left _ _), ?_⟩
    intro s hs
    rcases List.mem_cons.mp hs with rfl | hs
    · exact le_trans h1 (min_le_right _ _)
    · exact h2 s hs

theorem foldl_min_mem (l : List Nat) (acc : Nat) :
    l.foldl min acc = acc ∨ l.foldl min acc ∈ l := by
  induction l generalizing acc with
  | nil => simp
  | cons a l ih =>
    rw [List.foldl_cons]
    rcases ih (min acc a) with h | h
    · rcases min_choice acc a with hm | hm
      · left; rw [h, hm]
      · right; rw [h, hm]; exact List.mem_cons_self _ _
    · right; exact List.mem_cons_of_mem _ h

/-- For a table in which no entry has start 0 with a nonzero size, `find_start_of_ram` returns
the all-ones value when no entry precedes the first sentinel `{0, 0}` (the table is empty or
begins with a sentinel), and otherwise the minimum start among the entries that precede the
first sentinel. -/
theorem find_start_of_ram_min_before_sentinel (memory_table : List Nat) (entries : Nat)
    (h : ∀ k, k < entries → (entry_at memory_table k).1 = 0 → (entry_at memory_table k).2 = 0) :
    (starts_before_sentinel memory_table entries = [] →
        find_start_of_ram memory_table entries = 2 ^ 64 - 1)
      ∧ (starts_before_sentinel memory_table entries ≠ [] →
        find_start_of_ram memory_table entries ∈ starts_before_sentinel memory_table entries
          ∧ ∀ s ∈ starts_before_sentinel memory_table entries,
            find_start_of_ram memory_table entries ≤ s) := by
  have e : find_start_of_ram memory_table entries
      = (starts_before_sentinel memory_table entries).foldl min (2 ^ 64 - 1) := by
    unfold find_start_of_ram starts_before_sentinel entries_of
    rw [find_start_of_ram_loop_eq memory_table entries 0 _ (fun k _ hk => h k (by omega)),
      List.range_eq_range']
  rw [e]
  constructor
  · intro hnil
    rw [hnil]
    rfl
  · intro hne
    obtain ⟨h1, h2⟩ := foldl_min_le (starts_before_sentinel memory_table entries) (2 ^ 64 - 1)
    refine ⟨?_, h2⟩
    rcases foldl_min_mem (starts_before_sentinel memory_table entries) (2 ^ 64 - 1) with hm | hm
    · obtain ⟨s, hs⟩ := List.exists_mem_of_ne_nil _ hne
      have hle := h2 s hs
      have hlt : s < 2 ^ 64 := by
        unfold starts_before_sentinel entries_of at hs
        rw [List.mem_map] at hs
        obtain ⟨q, hq, rfl⟩ := hs
        have hq2 := List.takeWhile_subset _ hq
        rw [List.mem_map] at hq2
        obtain ⟨k, _, rfl⟩ := hq2
        exact (from_entry_lt _).1
      have : s = (starts_before_sentinel memory_table entries).foldl min (2 ^ 64 - 1) := by
        omega
      rw [← this]
      exact hs
    · exact hm

theorem find_start_of_ram_min_before_sentinel_witness :
    (∀ k, k < 2 → (entry_at (table_of [(0x80000000, 0x1000), (0x40000000, 0x1000)]) k).1 = 0 →
        (entry_at (table_of [(0x80000000, 0x1000), (0x40000000, 0x1000)]) k).2 = 0)
      ∧ find_start_of_ram (table_of [(0x80000000, 0x1000), (0x40000000, 0x1000)]) 2 = 0x40000000
      ∧ (starts_before_sentinel (table_of [(0x80000000, 0x1000), (0x40000000, 0x1000)]) 2 = [] →
        find_start_of_ram (table_of [(0x80000000, 0x1000), (0x40000000, 0x1000)]) 2 = 2 ^ 64 - 1)
      ∧ (starts_before_sentinel (table_of [(0x80000000, 0x1000), (0x40000000, 0x1000)]) 2 ≠ [] →
        find_start_of_ram (table_of [(0x80000000, 0x1000), (0x40000000, 0x1000)]) 2
            ∈ starts_before_sentinel (table_of [(0x80000000, 0x1000), (0x40000000, 0x1000)]) 2
          ∧ ∀ s ∈ starts_before_sentinel (table_of [(0x80000000, 0x1000), (0x40000000, 0x1000)]) 2,
            find_start_of_ram (table_of [(0x80000000, 0x1000), (0x40000000, 0x1000)]) 2 ≤ s) :=
  ⟨by decide, by decide,
    find_start_of_ram_min_before_sentinel
      (table_of [(0x80000000, 0x1000), (0x40000000, 0x1000)]) 2 (by decide)⟩

/-- The scan ends at the first sentinel: for `[{0x1000, 0x1000}, {0, 0}, {0x500, 0x100}]` it
returns `0x1000`, although `0x500` is the start of a later non-sentinel entry. -/
theorem find_start_of_ram_stops_at_sentinel :
    find_start_of_ram (table_of [(0x1000, 0x1000), (0, 0), (0x500, 0x100)]) 3 = 0x1000
      ∧ 0x500 ∈ non_sentinel_starts (table_of [(0x1000, 0x1000), (0, 0), (0x500, 0x100)]) 3
      ∧ ¬ (∀ s ∈ non_sentinel_starts (table_of [(0x1000, 0x1000), (0, 0), (0x500, 0x100)]) 3,
          find_start_of_ram (table_of [(0x1000, 0x1000), (0, 0), (0x500, 0x100)]) 3 ≤ s) := by
  decide

/-- C8 (the code at the failing input): the table `[{0x0, 0x10000000}, {0x10100000, 0x2FF00000}]`
holds two banks and no sentinel, and the least of their starts is `0`; `find_start_of_ram`
returns the all-ones value for it, because the scan ends at the first entry whose address is 0,
whatever its size. The single bank `[{0x0, 0x40000000}]` gives the same. -/
theorem find_start_of_ram_bank_at_zero :
    non_sentinel_starts (table_of [(0x0, 0x10000000), (0x10100000, 0x2FF00000)]) 2
        = [0x0, 0x10100000]
      ∧ find_start_of_ram (table_of [(0x0, 0x10000000), (0x10100000, 0x2FF00000)]) 2
        = 2 ^ 64 - 1
      ∧ non_sentinel_starts (table_of [(0x0, 0x40000000)]) 1 = [0x0]
      ∧ find_start_of_ram (table_of [(0x0, 0x40000000)]) 1 = 2 ^ 64 - 1 := by
  decide

/-! ## Image extents -/

theorem cpu_to_fdt32_read (v : Nat) (hv : v < 2 ^ 32) : fdt32_to_cpu (cpu_to_fdt32 v) = v := by
  rw [cpu_to_fdt32, fdt32_to_cpu_invol, Nat.mod_eq_of_lt hv]

theorem shift_or_eq (hi lo : Nat) (hhi : hi < 2 ^ 32) :
    ((hi <<< 32) % 2 ^ 64) ||| lo = (hi <<< 32) ||| lo := by
  rw [Nat.shiftLeft_eq, Nat.mod_eq_of_lt (by omega)]

/-- C9: for a `reg` property holding the four big-endian cells
`[addr_hi, addr_lo, size_hi, size_lo]`, `get_image_extents` returns `SUCCESS` and stores
`(addr_hi << 32) | addr_lo` through `out_location` and `(size_hi << 32) | size_lo` through
`out_size`, wherever those pointers are not NULL. -/
theorem get_image_extents_reads_cells (addr_hi addr_lo size_hi size_lo : Nat)
    (out_location out_size : Option Nat)
    (h0 : addr_hi < 2 ^ 32) (h1 : addr_lo < 2 ^ 32) (h2 : size_hi < 2 ^ 32)
    (h3 : size_lo < 2 ^ 32) :
    get_image_extents
        (some [cpu_to_fdt32 addr_hi, cpu_to_fdt32 addr_lo, cpu_to_fdt32 size_hi,
          cpu_to_fdt32 size_lo]) out_location out_size
      = { rc := SUCCESS
          out_location := out_location.map (fun _ => (addr_hi <<< 32) ||| addr_lo)
          out_size := out_size.map (fun _ => (size_hi <<< 32) ||| size_lo) } := by
  have e1 : image_location_from_devicetree
      [cpu_to_fdt32 addr_hi, cpu_to_fdt32 addr_lo, cpu_to_fdt32 size_hi, cpu_to_fdt32 size_lo] 0
      = (addr_hi <<< 32) ||| addr_lo := by
    simp only [image_location_from_devicetree, word, List.getD_cons_zero, List.getD_cons_succ,
      cpu_to_fdt32_read _ h0, cpu_to_fdt32_read _ h1]
    exact shift_or_eq _ _ h0
  have e2 : image_size_from_devicetree
      [cpu_to_fdt32 addr_hi, cpu_to_fdt32 addr_lo, cpu_to_fdt32 size_hi, cpu_to_fdt32 size_lo] 2
      = (size_hi <<< 32) ||| size_lo := by
    simp only [image_size_from_devicetree, image_location_from_devicetree, word,
      List.getD_cons_zero, List.getD_cons_succ, cpu_to_fdt32_read _ h2, cpu_to_fdt32_read _ h3]
    exact shift_or_eq _ _ h2
  have hlen : ¬ (fdt_getprop (some [cpu_to_fdt32 addr_hi, cpu_to_fdt32 addr_lo,
      cpu_to_fdt32 size_hi, cpu_to_fdt32 size_lo])).2 ≤ 0 := by
    simp [fdt_getprop]
  unfold get_image_extents
  simp only [hlen, if_false]
  simp only [fdt_getprop, e1, e2]
  cases out_location <;> cases out_size <;> rfl

theorem get_image_extents_reads_cells_witness :
    ((0 : Nat) < 2 ^ 32 ∧ 0x80100000 < 2 ^ 32 ∧ (0 : Nat) < 2 ^ 32 ∧ 0xC0770 < 2 ^ 32)
      ∧ (0 <<< 32) ||| 0x80100000 = 0x80100000 ∧ (0 <<< 32) ||| 0xC0770 = 0xC0770
      ∧ get_image_extents
          (some [cpu_to_fdt32 0, cpu_to_fdt32 0x80100000, cpu_to_fdt32 0, cpu_to_fdt32 0xC0770])
          (some 0) (some 0)
        = { rc := SUCCESS
            out_location := (some 0).map (fun _ => (0 <<< 32) ||| 0x80100000)
            out_size := (some 0).map (fun _ => (0 <<< 32) ||| 0xC0770) } :=
  ⟨by decide, by decide, by decide,
    get_image_extents_reads_cells 0 0x80100000 0 0xC0770 (some 0) (some 0)
      (by decide) (by decide) (by decide) (by decide)⟩

/-- C10 (code at the failing input): for a `reg` property that is present with zero length,
`get_image_extents` takes the error branch, writes neither out-argument, and returns
`-0`, which is `SUCCESS`; for an absent property it returns a code other than `SUCCESS`. -/
theorem get_image_extents_zero_length_returns_success (out_location out_size : Option Nat) :
    get_image_extents (some []) out_location out_size
        = { rc := SUCCESS, out_location := out_location, out_size := out_size }
      ∧ (get_image_extents none out_location out_size).rc ≠ SUCCESS
      ∧ (get_image_extents none out_location out_size).out_location = out_location
      ∧ (get_image_extents none out_location out_size).out_size = out_size := by
  refine ⟨rfl, ?_, rfl, rfl⟩
  show ¬ (-(-FDT_ERR_NOTFOUND) = SUCCESS)
  decide

/-! ## The boot sequence -/

/-- C13: `ensure_image_is_accessible` returns `SUCCESS` exactly when the header check of the
tree library accepts the image, and otherwise returns the non-zero code of that check
unchanged, which is not `SUCCESS`. -/
theorem ensure_image_is_accessible_returns_check (fdt_check_header : Nat → Int)
    (fdt_totalsize : Nat → Nat) (image : Nat) :
    ((ensure_image_is_accessible fdt_check_header fdt_totalsize image).1 = SUCCESS
        ↔ fdt_check_header image = 0)
      ∧ (fdt_check_header image ≠ 0 →
        (ensure_image_is_accessible fdt_check_header fdt_totalsize image).1
            = fdt_check_header image
          ∧ (ensure_image_is_accessible fdt_check_header fdt_totalsize image).1 ≠ SUCCESS) := by
  unfold ensure_image_is_accessible SUCCESS
  by_cases h : fdt_check_header image = 0
  · simp [h]
  · simp [h]

/-- C11 (code at the failing input): for a node that is found (offset 80) but has no `reg`
property, `get_image_extents` returns a code other than `SUCCESS`, yet `find_image_verbosely`
returns `SUCCESS` and leaves both out-arguments as they were. A failed node lookup does give a
code other than `SUCCESS`. -/
theorem find_image_verbosely_ignores_extents_failure (out_location out_size : Option Nat) :
    (get_image_extents none out_location out_size).rc ≠ SUCCESS
      ∧ find_image_verbosely 80 none out_location out_size
        = { rc := SUCCESS, out_location := out_location, out_size := out_size }
      ∧ (find_image_verbosely (-1) none out_location out_size).rc ≠ SUCCESS := by
  refine ⟨?_, rfl, ?_⟩
  · show ¬ (-(-FDT_ERR_NOTFOUND) = SUCCESS)
    decide
  · show ¬ (-(-1 : Int) = SUCCESS)
    decide

theorem main_el1_launch_requires (env : BootEnv) (kernel fdt : Nat)
    (h : main_el1 env = .launched kernel fdt) :
    env.el = 1 ∧ env.fdt_check_header env.fdt = 0 ∧ 0 ≤ env.module_offset
      ∧ (update_fdt_to_exclude_memory env.memory env.lds_bfstub_start env.lds_el2_bfstub_end
          (some env.start_of_ram)).rc = SUCCESS := by
  unfold main_el1 at h
  by_cases h1 : env.el = 1
  swap
  · simp [h1] at h
  by_cases h2 : load_device_tree env.fdt_check_header env.fdt_totalsize env.fdt = false
  · simp [h1, h2] at h
  by_cases h3 : (find_image_verbosely env.module_offset env.module_reg
      (some env.kernel_location) (some env.kernel_size)).rc = 0
  swap
  · simp [h1, h2, h3] at h
  by_cases h4 : (exclude_el2_memory_from_fdt env.memory env.lds_bfstub_start
      env.lds_el2_bfstub_end (some env.start_of_ram)).rc = 0
  swap
  · simp [h1, h2, h3, h4] at h
  refine ⟨h1, ?_, ?_, h4⟩
  · by_contra hc
    apply h2
    simp [load_device_tree, ensure_image_is_accessible, hc, SUCCESS]
  · by_contra hc
    have hlt : env.module_offset < 0 := by omega
    simp only [find_image_verbosely, find_node, hlt, if_true] at h3
    omega

/-- C12 (code at the failing input): at EL1, with a valid tree whose `/module@0` node has no
`reg` property and a `/memory` table that can be rewritten, `main_el1` does not panic: it
relocates and launches from the values its uninitialised locals happen to hold (here
`kernel_location = 0xDEAD0000`), although the read of the extents failed. -/
theorem main_el1_launches_without_extents :
    (get_image_extents none (some 0xDEAD0000) (some 0x10)).rc ≠ SUCCESS
      ∧ main_el1
          { el := 1, fdt := 0x90000000, fdt_check_header := fun _ => 0,
            fdt_totalsize := fun _ => 0x1000, module_offset := 80, module_reg := none,
            memory := ⟨100, some (table_of [(0x80000000, 0x40000000)]), 0⟩,
            lds_bfstub_start := 0x80080000, lds_el2_bfstub_end := 0x80100000,
            mem := fun _ => 0, kernel_location := 0xDEAD0000, kernel_size := 0x10,
            start_of_ram := 0 }
        = .launched 0x80000000 0x90000000 := by
  constructor
  · decide
  · decide

theorem memmove_copies (mem : Nat → Nat) (dst0 src0 length i : Nat) (hd : dst0 < 2 ^ 64)
    (hlen : length ≤ 2 ^ 64) (hi : i < length) :
    (memmove mem dst0 src0 length).2 ((dst0 + i) % 2 ^ 64) = mem ((src0 + i) % 2 ^ 64) := by
  have e : ((dst0 + i) % 2 ^ 64 % 2 ^ 64 + 2 ^ 64 - dst0 % 2 ^ 64) % 2 ^ 64 = i := by omega
  simp only [memmove, e, hi, if_true]

/-- C14: `relocate_kernel` returns `start_of_ram + text_offset` modulo `2 ^ 64`, where
`text_offset` is the 64-bit word at byte offset 8 of the kernel image, and afterwards the `size`
bytes at that address are the bytes the source held before the call, whether or not the two
ranges overlap. -/
theorem relocate_kernel_moves_image (mem : Nat → Nat) (kernel size start_of_ram : Nat)
    (hsize : size ≤ 2 ^ 64) :
    (relocate_kernel mem kernel size start_of_ram).1
        = (start_of_ram + load_u64 mem (kernel + 8)) % 2 ^ 64
      ∧ ∀ i, i < size →
        (relocate_kernel mem kernel size start_of_ram).2
            (((relocate_kernel mem kernel size start_of_ram).1 + i) % 2 ^ 64)
          = mem ((kernel + i) % 2 ^ 64) := by
  refine ⟨rfl, ?_⟩
  intro i hi
  exact memmove_copies mem _ kernel size i (Nat.mod_lt _ (by norm_num)) hsize hi

theorem relocate_kernel_moves_image_witness :
    (64 ≤ 2 ^ 64)
      ∧ (relocate_kernel (fun a => if a = 0x1008 then 0x10 else if a < 0x1010 then 0 else a % 251)
          0x1000 64 0x1000).1 = 0x1010
      ∧ (relocate_kernel (fun a => if a = 0x1008 then 0x10 else if a < 0x1010 then 0 else a % 251)
          0x1000 64 0x1000).1
        = (0x1000 + load_u64
            (fun a => if a = 0x1008 then 0x10 else if a < 0x1010 then 0 else a % 251)
            (0x1000 + 8)) % 2 ^ 64
      ∧ ∀ i, i < 64 →
        (relocate_kernel (fun a => if a = 0x1008 then 0x10 else if a < 0x1010 then 0 else a % 251)
            0x1000 64 0x1000).2
            (((relocate_kernel
                (fun a => if a = 0x1008 then 0x10 else if a < 0x1010 then 0 else a % 251)
                0x1000 64 0x1000).1 + i) % 2 ^ 64)
          = (fun a => if a = 0x1008 then 0x10 else if a < 0x1010 then 0 else a % 251)
              ((0x1000 + i) % 2 ^ 64) :=
  ⟨by decide, by decide,
    relocate_kernel_moves_image
      (fun a => if a = 0x1008 then 0x10 else if a < 0x1010 then 0 else a % 251)
      0x1000 64 0x1000 (by decide)⟩

/-- C20: for every kernel image, `launch_kernel` jumps to the start of the image and passes
the address of the tree, whether or not the 32-bit word at index 14 is `0x644d5241`; a mismatch
only puts two warning lines before the launch message. -/
theorem launch_kernel_always_jumps (mem : Nat → Nat) (kernel fdt : Nat) :
    (launch_kernel mem kernel fdt).target = kernel
      ∧ (launch_kernel mem kernel fdt).argument = fdt
      ∧ (load_u32 mem (kernel + 14 * 4) = 0x644d5241 →
        (launch_kernel mem kernel fdt).output
          = [.printf ("Launching hardware domain kernel...\n") []])
      ∧ (load_u32 mem (kernel + 14 * 4) ≠ 0x644d5241 →
        (launch_kernel mem kernel fdt).output
          = [.printf ("! WARNING: Kernel image has invalid magic (0x%x)\n") [kernel],
             .printf ("!          Attempting to boot anyways.\n") [],
             .printf ("Launching hardware domain kernel...\n") []]) := by
  refine ⟨rfl, rfl, ?_, ?_⟩
  · intro h
    simp [launch_kernel, h]
  · intro h
    simp [launch_kernel, h]

theorem mem_print_registers_even (regs : GuestState) (k : Nat) (hk : k < 15) :
    Out.printf ("x%d:\t0x%p\t") [2 * k, regs.x (2 * k)] ∈ print_registers regs := by
  unfold print_registers
  apply List.mem_append_left
  rw [List.mem_flatMap]
  exact ⟨k, List.mem_range.mpr hk, List.mem_cons_self _ _⟩

theorem mem_print_registers_odd (regs : GuestState) (k : Nat) (hk : k < 15) :
    Out.printf ("x%d:\t0x%p\n") [2 * k + 1, regs.x (2 * k + 1)] ∈ print_registers regs := by
  unfold print_registers
  apply List.mem_append_left
  rw [List.mem_flatMap]
  exact ⟨k, List.mem_range.mpr hk, List.mem_cons_of_mem _ (List.mem_cons_self _ _)⟩

theorem register_line_mem (regs : GuestState) (i : Nat) (hi : i ≤ 30) :
    register_line regs i ∈ print_registers regs := by
  unfold register_line
  by_cases h30 : i = 30
  · simp only [h30, if_true]
    unfold print_registers
    apply List.mem_append_right
    exact List.mem_cons_self _ _
  · simp only [h30, if_false]
    by_cases hpar : i % 2 = 0
    · simp only [hpar, if_true]
      have e : i = 2 * (i / 2) := by omega
      rw [e]
      exact mem_print_registers_even regs (i / 2) (by omega)
    · simp only [hpar, if_false]
      have e : i = 2 * (i / 2) + 1 := by omega
      rw [e]
      exact mem_print_registers_odd regs (i / 2) (by omega)

theorem pc_line_mem (regs : GuestState) :
    Out.printf ("pc:\t0x%p\tcpsr:\t0x%p\n") [regs.pc, regs.cpsr] ∈ print_registers regs := by
  unfold print_registers
  apply List.mem_append_right
  simp

theorem print_registers_sub_hypercall (mem : Nat → Nat) (regs : GuestState)
    (h : esr_ec regs.esr_el2 ≠ HSR_EC_HVC64 ∨ esr_iss regs.esr_el2 &&& 0xFFFF ≠ 0x1234) :
    ∀ o ∈ print_registers regs, o ∈ (handle_hypercall mem regs).2 := by
  intro o ho
  unfold handle_hypercall
  by_cases hec : esr_ec regs.esr_el2 = HSR_EC_HVC64
  · have hnr : esr_iss regs.esr_el2 &&& 0xFFFF ≠ 0x1234 := by
      rcases h with h | h
      · exact absurd hec h
      · exact h
    simp only [hec, if_true, handle_hvc, hnr, if_false]
    exact List.mem_append_left _ (List.mem_append_right _ ho)
  · simp only [hec, if_false]
    exact List.mem_append_left _ (List.mem_append_right _ ho)

/-- C15: for a guest state whose trap cause is not an `hvc` from 64-bit code, or whose call
number (the low 16 bits of the ISS field) is not `0x1234`, `handle_hypercall` leaves the guest
state as it was, and its output contains the line of each of `x0`..`x30` and the line of the
program counter. -/
theorem handle_hypercall_default_dumps_state (mem : Nat → Nat) (regs : GuestState)
    (h : esr_ec regs.esr_el2 ≠ HSR_EC_HVC64 ∨ esr_iss regs.esr_el2 &&& 0xFFFF ≠ 0x1234) :
    (handle_hypercall mem regs).1 = regs
      ∧ (∀ i, i ≤ 30 → register_line regs i ∈ (handle_hypercall mem regs).2)
      ∧ Out.printf ("pc:\t0x%p\tcpsr:\t0x%p\n") [regs.pc, regs.cpsr]
          ∈ (handle_hypercall mem regs).2 := by
  refine ⟨?_, ?_, ?_⟩
  · unfold handle_hypercall handle_hvc
    by_cases hec : esr_ec regs.esr_el2 = HSR_EC_HVC64
    · by_cases hnr : esr_iss regs.esr_el2 &&& 0xFFFF = 0x1234
      · simp only [hec, hnr, if_true]
      · simp only [hec, hnr, if_true, if_false]
    · simp only [hec, if_false]
  · intro i hi
    exact print_registers_sub_hypercall mem regs h _ (register_line_mem regs i hi)
  · exact print_registers_sub_hypercall mem regs h _ (pc_line_mem regs)

theorem handle_hypercall_default_dumps_state_witness :
    (esr_ec 0x5A000042 ≠ HSR_EC_HVC64 ∨ esr_iss 0x5A000042 &&& 0xFFFF ≠ 0x1234)
      ∧ (handle_hypercall (fun _ => 0)
          ⟨fun i => 0x100 + i, 0x80080000, 0x3c5, 0x1000, 0x2000, 0x3000, 0x4000, 0x5A000042⟩).1
        = ⟨fun i => 0x100 + i, 0x80080000, 0x3c5, 0x1000, 0x2000, 0x3000, 0x4000, 0x5A000042⟩
      ∧ (∀ i, i ≤ 30 →
        register_line
            ⟨fun i => 0x100 + i, 0x80080000, 0x3c5, 0x1000, 0x2000, 0x3000, 0x4000, 0x5A000042⟩ i
          ∈ (handle_hypercall (fun _ => 0)
            ⟨fun i => 0x100 + i, 0x80080000, 0x3c5, 0x1000, 0x2000, 0x3000, 0x4000,
              0x5A000042⟩).2)
      ∧ Out.printf ("pc:\t0x%p\tcpsr:\t0x%p\n") [0x80080000, 0x3c5]
          ∈ (handle_hypercall (fun _ => 0)
            ⟨fun i => 0x100 + i, 0x80080000, 0x3c5, 0x1000, 0x2000, 0x3000, 0x4000,
              0x5A000042⟩).2 :=
  ⟨Or.inr (by decide),
    handle_hypercall_default_dumps_state (fun _ => 0)
      ⟨fun i => 0x100 + i, 0x80080000, 0x3c5, 0x1000, 0x2000, 0x3000, 0x4000, 0x5A000042⟩
      (Or.inr (by decide))⟩

/-! ## Special cases of the split, and the reference rules -/

/-- C16: for an entry that lies inside the exclusion (`x ≤ start` and `start + size ≤ y`, the
entry equal to the exclusion included), `copy_or_split_memory_table_entries` emits no entry. -/
theorem copy_or_split_inside_exclusion (source_entry : List Nat) (x y : Nat)
    (hx : x ≤ (_from_mem_table_entry source_entry).1)
    (hy : (_from_mem_table_entry source_entry).1 + (_from_mem_table_entry source_entry).2 ≤ y) :
    copy_or_split_memory_table_entries source_entry x y = (0, []) := by
  rw [copy_or_split_eq]
  have hmod : ((_from_mem_table_entry source_entry).1 + (_from_mem_table_entry source_entry).2)
      % 2 ^ 64 ≤ y := le_trans (Nat.mod_le _ _) hy
  have h1 : ¬ (_from_mem_table_entry source_entry).1 < x := by omega
  have h2 : ¬ ((_from_mem_table_entry source_entry).1 + (_from_mem_table_entry source_entry).2)
      % 2 ^ 64 > y := by omega
  simp only [split_pieces, h1, h2, if_false, List.append_nil, List.length_nil]
  rfl

theorem copy_or_split_inside_exclusion_witness :
    (0x0 ≤ (_from_mem_table_entry (table_of [(0x0, 0x1000), (0x2000, 0x1000)])).1
      ∧ (_from_mem_table_entry (table_of [(0x0, 0x1000), (0x2000, 0x1000)])).1
          + (_from_mem_table_entry (table_of [(0x0, 0x1000), (0x2000, 0x1000)])).2 ≤ 0x1000)
      ∧ rewrite_memory_table (table_of [(0x0, 0x1000), (0x2000, 0x1000)]) 0x0 0x1000
        = .ok (table_of [(0x2000, 0x1000)], 1)
      ∧ copy_or_split_memory_table_entries (table_of [(0x0, 0x1000), (0x2000, 0x1000)])
          0x0 0x1000 = (0, []) :=
  ⟨⟨by decide, by decide⟩, rfl,
    copy_or_split_inside_exclusion (table_of [(0x0, 0x1000), (0x2000, 0x1000)]) 0x0 0x1000
      (by decide) (by decide)⟩

/-- C17 (amended): for an entry of nonzero size that ends below the top of the address space
(`start + size < 2 ^ 64`) and an exclusion `[x, y)` with `x < y` that shares no byte address
with it, `copy_or_split_memory_table_entries` emits exactly one entry, with the start and the
size of the source entry. -/
theorem copy_or_split_disjoint (source_entry : List Nat) (x y : Nat)
    (hpos : 0 < (_from_mem_table_entry source_entry).2)
    (hno : (_from_mem_table_entry source_entry).1 + (_from_mem_table_entry source_entry).2
      < 2 ^ 64)
    (hxy : x < y)
    (hdisj : ∀ p, ¬ ((_from_mem_table_entry source_entry).1 ≤ p
      ∧ p < (_from_mem_table_entry source_entry).1 + (_from_mem_table_entry source_entry).2
      ∧ x ≤ p ∧ p < y)) :
    (copy_or_split_memory_table_entries source_entry x y).1 = 1
      ∧ entry_at (copy_or_split_memory_table_entries source_entry x y).2 0
        = _from_mem_table_entry source_entry := by
  have hd := hdisj (max (_from_mem_table_entry source_entry).1 x)
  have hlt := from_entry_lt source_entry
  rw [copy_or_split_eq]
  have hp : split_pieces (_from_mem_table_entry source_entry).1
      (_from_mem_table_entry source_entry).2 x y = [_from_mem_table_entry source_entry] := by
    unfold split_pieces
    rw [Nat.mod_eq_of_lt hno]
    by_cases h1 : (_from_mem_table_entry source_entry).1 < x
    · have h2 : ¬ (_from_mem_table_entry source_entry).1
          + (_from_mem_table_entry source_entry).2 > y := by omega
      simp only [h1, h2, if_true, if_false, List.append_nil, List.cons.injEq, and_true]
      ext
      · rfl
      · show (min _ x + 2 ^ 64 - _) % 2 ^ 64 = _
        omega
    · have h2 : (_from_mem_table_entry source_entry).1
          + (_from_mem_table_entry source_entry).2 > y := by omega
      simp only [h1, h2, if_true, if_false, List.nil_append, List.cons.injEq, and_true]
      ext
      · show max _ y = _
        omega
      · show (_ + 2 ^ 64 - max _ y) % 2 ^ 64 = _
        omega
  rw [hp]
  refine ⟨rfl, ?_⟩
  have e := entry_at_table_of [_from_mem_table_entry source_entry] []
    (fun q hq => by rw [List.mem_singleton.mp hq]; exact hlt) 0 (by simp)
  rw [List.append_nil] at e
  rw [e]
  rfl

theorem copy_or_split_disjoint_witness :
    (0 < (_from_mem_table_entry (table_of [(0x2000, 0x1000)])).2
      ∧ (_from_mem_table_entry (table_of [(0x2000, 0x1000)])).1
          + (_from_mem_table_entry (table_of [(0x2000, 0x1000)])).2 < 2 ^ 64
      ∧ 0x0 < 0x1000)
      ∧ (copy_or_split_memory_table_entries (table_of [(0x2000, 0x1000)]) 0x0 0x1000).1 = 1
      ∧ entry_at (copy_or_split_memory_table_entries (table_of [(0x2000, 0x1000)])
            0x0 0x1000).2 0
        = _from_mem_table_entry (table_of [(0x2000, 0x1000)]) :=
  ⟨⟨by decide, by decide, by decide⟩,
    copy_or_split_disjoint (table_of [(0x2000, 0x1000)]) 0x0 0x1000 (by decide) (by decide)
      (by decide) (fun p hp => by
        have e : _from_mem_table_entry (table_of [(0x2000, 0x1000)]) = (0x2000, 0x1000) := by
          decide
        rw [e] at hp
        omega)⟩

/-- C17 (as stated) fails in three ways. A bank that ends at the top of the address space and
is disjoint from the exclusion `[0x100, 0x200)` yields no entry; the sentinel `{0, 0}`, which
holds no address, yields no entry for the exclusion `[0x0, 0x1000)`; and the empty exclusion
`[0x10000000, 0x10000000)` splits the bank `{0x0, 0x40000000}` in two. -/
theorem copy_or_split_disjoint_not_identity :
    ((∀ p, ¬ (0xFFFFFFFFFFFFF000 ≤ p ∧ p < 0xFFFFFFFFFFFFF000 + 0x1000 ∧ 0x100 ≤ p ∧ p < 0x200))
        ∧ _from_mem_table_entry (table_of [(0xFFFFFFFFFFFFF000, 0x1000)])
          = (0xFFFFFFFFFFFFF000, 0x1000)
        ∧ (copy_or_split_memory_table_entries (table_of [(0xFFFFFFFFFFFFF000, 0x1000)])
            0x100 0x200).1 = 0)
      ∧ ((∀ p, ¬ (0x0 ≤ p ∧ p < 0x0 + 0x0 ∧ 0x0 ≤ p ∧ p < 0x1000))
        ∧ _from_mem_table_entry (table_of [(0x0, 0x0)]) = (0x0, 0x0)
        ∧ (copy_or_split_memory_table_entries (table_of [(0x0, 0x0)]) 0x0 0x1000).1 = 0)
      ∧ ((∀ p, ¬ (0x0 ≤ p ∧ p < 0x0 + 0x40000000 ∧ 0x10000000 ≤ p ∧ p < 0x10000000))
        ∧ _from_mem_table_entry (table_of [(0x0, 0x40000000)]) = (0x0, 0x40000000)
        ∧ (copy_or_split_memory_table_entries (table_of [(0x0, 0x40000000)])
            0x10000000 0x10000000).1 = 2) :=
  ⟨⟨fun p hp => by omega, by decide, by decide⟩,
    ⟨fun p hp => by omega, by decide, by decide⟩,
    ⟨fun p hp => by omega, by decide, by decide⟩⟩

theorem split_pieces_eq_splitEntry (a s x y : Nat) (h : a + s < 2 ^ 64) :
    split_pieces a s x y = (splitEntry a (a + s) x y).map entry_of_span := by
  unfold split_pieces splitEntry rule_A rule_B entry_of_span
  rw [Nat.mod_eq_of_lt h]
  by_cases h1 : a < x <;> by_cases h2 : a + s > y <;>
    simp only [h1, h2, if_true, if_false, List.append_nil, List.nil_append, List.map_nil,
      List.map_cons, List.singleton_append, List.cons.injEq, Prod.mk.injEq, true_and,
      and_true] <;> omega

theorem splitEntry_length_le (a b x y : Nat) : (splitEntry a b x y).length ≤ 2 := by
  unfold splitEntry rule_A rule_B
  split_ifs <;> simp

/-- C18 (amended): for an entry with start `a` and end `b = a + size < 2 ^ 64` and any
exclusion `[x, y)`, `copy_or_split_memory_table_entries` writes the entries of the reference
list, Rule A's span `[a, min(b, x))` (if `a < x`) followed by Rule B's span `[max(a, y), b)`
(if `b > y`), and returns the length of that list, which is at most 2. -/
theorem copy_or_split_refines_rules (source_entry : List Nat) (x y : Nat)
    (hno : (_from_mem_table_entry source_entry).1 + (_from_mem_table_entry source_entry).2
      < 2 ^ 64) :
    copy_or_split_memory_table_entries source_entry x y
        = ((splitEntry (_from_mem_table_entry source_entry).1
              ((_from_mem_table_entry source_entry).1 + (_from_mem_table_entry source_entry).2)
              x y).length,
           table_of ((splitEntry (_from_mem_table_entry source_entry).1
              ((_from_mem_table_entry source_entry).1 + (_from_mem_table_entry source_entry).2)
              x y).map entry_of_span))
      ∧ (splitEntry (_from_mem_table_entry source_entry).1
          ((_from_mem_table_entry source_entry).1 + (_from_mem_table_entry source_entry).2)
          x y).length ≤ 2 := by
  refine ⟨?_, splitEntry_length_le _ _ _ _⟩
  rw [copy_or_split_eq, split_pieces_eq_splitEntry _ _ x y hno, List.length_map]

theorem copy_or_split_refines_rules_witness :
    ((_from_mem_table_entry (table_of [(0x0, 0x40000000)])).1
        + (_from_mem_table_entry (table_of [(0x0, 0x40000000)])).2 < 2 ^ 64)
      ∧ splitEntry 0x0 0x40000000 0x10000000 0x10100000
        = [(0x0, 0x10000000), (0x10100000, 0x40000000)]
      ∧ copy_or_split_memory_table_entries (table_of [(0x0, 0x40000000)])
          0x10000000 0x10100000
        = ((splitEntry (_from_mem_table_entry (table_of [(0x0, 0x40000000)])).1
              ((_from_mem_table_entry (table_of [(0x0, 0x40000000)])).1
                + (_from_mem_table_entry (table_of [(0x0, 0x40000000)])).2)
              0x10000000 0x10100000).length,
           table_of ((splitEntry (_from_mem_table_entry (table_of [(0x0, 0x40000000)])).1
              ((_from_mem_table_entry (table_of [(0x0, 0x40000000)])).1
                + (_from_mem_table_entry (table_of [(0x0, 0x40000000)])).2)
              0x10000000 0x10100000).map entry_of_span))
      ∧ (splitEntry (_from_mem_table_entry (table_of [(0x0, 0x40000000)])).1
          ((_from_mem_table_entry (table_of [(0x0, 0x40000000)])).1
            + (_from_mem_table_entry (table_of [(0x0, 0x40000000)])).2)
          0x10000000 0x10100000).length ≤ 2 :=
  ⟨by decide, by decide,
    copy_or_split_refines_rules (table_of [(0x0, 0x40000000)]) 0x10000000 0x10100000
      (by decide)⟩

/-- C18 (as stated) fails for a bank that ends at the top of the address space: for
`{0xFFFFFFFFFFFFF000, 0x1000}` and the exclusion `[0xFFFFFFFFFFFFF800, 0xFFFFFFFFFFFFFC00)` the
reference emits the two spans around the exclusion, the code one entry, the bank unchanged. -/
theorem copy_or_split_differs_from_rules :
    _from_mem_table_entry (table_of [(0xFFFFFFFFFFFFF000, 0x1000)])
        = (0xFFFFFFFFFFFFF000, 0x1000)
      ∧ splitEntry 0xFFFFFFFFFFFFF000 (0xFFFFFFFFFFFFF000 + 0x1000)
          0xFFFFFFFFFFFFF800 0xFFFFFFFFFFFFFC00
        = [(0xFFFFFFFFFFFFF000, 0xFFFFFFFFFFFFF800), (0xFFFFFFFFFFFFFC00, 0x10000000000000000)]
      ∧ copy_or_split_memory_table_entries (table_of [(0xFFFFFFFFFFFFF000, 0x1000)])
          0xFFFFFFFFFFFFF800 0xFFFFFFFFFFFFFC00
        = (1, table_of [(0xFFFFFFFFFFFFF000, 0x1000)]) := by
  decide

/-! ## When the capacity check fires -/

theorem rewrite_loop_fails (src : List Nat) (x y : Nat) (rem i : Nat) (tgt : List Nat) (cnt : Nat)
    (k : Nat) (hk : k < rem)
    (hfull : MAX_MEM_TABLE_ENTRIES < cnt + ((List.range' i k).map
      (fun j => (copy_or_split_memory_table_entries (src.drop (j * 4)) x y).1)).sum + 2) :
    rewrite_loop src x y rem i tgt cnt = .error (-FDT_ERR_NOSPACE) := by
  induction rem generalizing i tgt cnt k with
  | zero => omega
  | succ rem ih =>
    rw [rewrite_loop]
    by_cases hcap : cnt + 2 > MAX_MEM_TABLE_ENTRIES
    · simp only [hcap, if_true]
    · simp only [hcap, if_false]
      cases k with
      | zero =>
        simp only [List.range'_zero, List.map_nil, List.sum_nil] at hfull
        omega
      | succ k =>
        apply ih (i + 1) _ _ k (by omega)
        rw [List.range'_succ, List.map_cons, List.sum_cons] at hfull
        omega

theorem update_of_rewrite_error (fdt : Fdt) (x y : Nat) (out : Option Nat) (src : List Nat)
    (e : Int) (hn : 0 ≤ fdt.memory_node) (hreg : fdt.reg = some src)
    (hrw : rewrite_memory_table src x y = .error e) :
    update_fdt_to_exclude_memory fdt x y out = { rc := e, fdt := fdt, out_start_of_ram := out } := by
  unfold update_fdt_to_exclude_memory
  have hn2 : ¬ fdt.memory_node < 0 := by omega
  simp only [hn2, if_false, hreg, hrw]

/-- C19 (amended): when the `/memory` node and its `reg` table are present and, at some source
entry `i`, the number of entries produced from the entries before it plus the worst case of 2
for entry `i` exceeds `MAX_MEM_TABLE_ENTRIES`, `update_fdt_to_exclude_memory` returns
`-FDT_ERR_NOSPACE`, leaves the tree as it was and does not write `*out_start_of_ram`. -/
theorem update_fails_when_room_runs_out (fdt : Fdt) (x y : Nat) (out : Option Nat)
    (src : List Nat) (i : Nat) (hn : 0 ≤ fdt.memory_node) (hreg : fdt.reg = some src)
    (hi : i < source_entries_of_len (4 * src.length))
    (hfull : MAX_MEM_TABLE_ENTRIES < ((List.range i).map
      (fun j => (copy_or_split_memory_table_entries (src.drop (j * 4)) x y).1)).sum + 2) :
    (update_fdt_to_exclude_memory fdt x y out).rc = -FDT_ERR_NOSPACE
      ∧ (update_fdt_to_exclude_memory fdt x y out).fdt = fdt
      ∧ (update_fdt_to_exclude_memory fdt x y out).out_start_of_ram = out := by
  have hrw : rewrite_memory_table src x y = .error (-FDT_ERR_NOSPACE) := by
    unfold rewrite_memory_table
    apply rewrite_loop_fails src x y _ 0 [] 0 i hi
    rw [← List.range_eq_range']
    omega
  rw [update_of_rewrite_error fdt x y out src _ hn hreg hrw]
  exact ⟨rfl, rfl, rfl⟩

theorem update_fails_when_room_runs_out_witness :
    ((0 : Int) ≤ 0
      ∧ 7 < source_entries_of_len (4 * (table_of [(0, 9), (10, 9), (20, 9), (30, 9), (40, 9), (50, 9), (60, 9), (70, 9),
          (80, 9)]).length)
      ∧ MAX_MEM_TABLE_ENTRIES < ((List.range 7).map
          (fun j => (copy_or_split_memory_table_entries
            ((table_of [(0, 9), (10, 9), (20, 9), (30, 9), (40, 9), (50, 9), (60, 9), (70, 9),
          (80, 9)]).drop (j * 4)) 100 200).1)).sum + 2)
      ∧ (update_fdt_to_exclude_memory
          ⟨0, some (table_of [(0, 9), (10, 9), (20, 9), (30, 9), (40, 9), (50, 9), (60, 9), (70, 9),
          (80, 9)]), 0⟩ 100 200 (some 7)).rc = -FDT_ERR_NOSPACE
      ∧ (update_fdt_to_exclude_memory
          ⟨0, some (table_of [(0, 9), (10, 9), (20, 9), (30, 9), (40, 9), (50, 9), (60, 9), (70, 9),
          (80, 9)]), 0⟩ 100 200 (some 7)).fdt
        = ⟨0, some (table_of [(0, 9), (10, 9), (20, 9), (30, 9), (40, 9), (50, 9), (60, 9), (70, 9),
          (80, 9)]), 0⟩
      ∧ (update_fdt_to_exclude_memory
          ⟨0, some (table_of [(0, 9), (10, 9), (20, 9), (30, 9), (40, 9), (50, 9), (60, 9), (70, 9),
          (80, 9)]), 0⟩ 100 200 (some 7)).out_start_of_ram = some 7 :=
  ⟨⟨by decide, by decide, by decide⟩,
    update_fails_when_room_runs_out
      ⟨0, some (table_of [(0, 9), (10, 9), (20, 9), (30, 9), (40, 9), (50, 9), (60, 9), (70, 9),
          (80, 9)]), 0⟩ 100 200 (some 7) _ 7 (by decide) rfl (by decide) (by decide)⟩

/-- C19 (as stated) fails for five banks that the exclusion `[100, 200)` does not touch:
`2 * 5 > 8`, yet each bank yields one entry, the capacity check never fires, the call returns
`SUCCESS` and the tree is written. -/
theorem update_succeeds_on_five_banks :
    source_entries_of_len (4 * (table_of [(0, 9), (10, 9), (20, 9), (30, 9), (40, 9)]).length)
        = 5
      ∧ 2 * 5 > MAX_MEM_TABLE_ENTRIES
      ∧ (update_fdt_to_exclude_memory
          ⟨0, some (table_of [(0, 9), (10, 9), (20, 9), (30, 9), (40, 9)]), 0⟩
          100 200 none).rc = SUCCESS
      ∧ (update_fdt_to_exclude_memory
          ⟨0, some (table_of [(0, 9), (10, 9), (20, 9), (30, 9), (40, 9)]), 0⟩
          100 200 none).fdt
        ≠ ⟨0, some (table_of [(0, 9), (10, 9), (20, 9), (30, 9), (40, 9)]), 0⟩ := by
  decide

/-! ## The cell encoding, real banks and the sentinel -/

theorem to_from_cells (c0 c1 c2 c3 : Nat) (h0 : c0 < 2 ^ 32) (h1 : c1 < 2 ^ 32)
    (h2 : c2 < 2 ^ 32) (h3 : c3 < 2 ^ 32) :
    _to_mem_table_entry (_from_mem_table_entry [c0, c1, c2, c3]).1
        (_from_mem_table_entry [c0, c1, c2, c3]).2 = [c0, c1, c2, c3] := by
  rw [from_entry_cells]
  have e : (0xFFFFFFFF : Nat) = 2 ^ 32 - 1 := by norm_num
  simp only [_to_mem_table_entry, cpu_to_fdt32, Nat.shiftRight_eq_div_pow, e,
    Nat.and_pow_two_sub_one_eq_mod]
  have l0 := fdt32_to_cpu_lt c0
  have l1 := fdt32_to_cpu_lt c1
  have l2 := fdt32_to_cpu_lt c2
  have l3 := fdt32_to_cpu_lt c3
  have d0 : (fdt32_to_cpu c0 * 2 ^ 32 + fdt32_to_cpu c1) / 2 ^ 32 = fdt32_to_cpu c0 := by omega
  have m0 : (fdt32_to_cpu c0 * 2 ^ 32 + fdt32_to_cpu c1) % 2 ^ 32 = fdt32_to_cpu c1 := by omega
  have d1 : (fdt32_to_cpu c2 * 2 ^ 32 + fdt32_to_cpu c3) / 2 ^ 32 = fdt32_to_cpu c2 := by omega
  have m1 : (fdt32_to_cpu c2 * 2 ^ 32 + fdt32_to_cpu c3) % 2 ^ 32 = fdt32_to_cpu c3 := by omega
  rw [d0, m0, d1, m1, fdt32_to_cpu_invol, fdt32_to_cpu_invol, fdt32_to_cpu_invol,
    fdt32_to_cpu_invol, Nat.mod_eq_of_lt h0, Nat.mod_eq_of_lt h1, Nat.mod_eq_of_lt h2,
    Nat.mod_eq_of_lt h3]

/-- C30: the cell encoding round-trips. For 64-bit `addr` and `size`, `_from_mem_table_entry`
reads `(addr, size)` back from the four cells `_to_mem_table_entry` writes; and for four
32-bit cells, `_to_mem_table_entry` of the decoded pair writes the same four cells. -/
theorem mem_table_entry_round_trip (addr size c0 c1 c2 c3 : Nat)
    (ha : addr < 2 ^ 64) (hs : size < 2 ^ 64)
    (h0 : c0 < 2 ^ 32) (h1 : c1 < 2 ^ 32) (h2 : c2 < 2 ^ 32) (h3 : c3 < 2 ^ 32) :
    _from_mem_table_entry (_to_mem_table_entry addr size) = (addr, size)
      ∧ _to_mem_table_entry (_from_mem_table_entry [c0, c1, c2, c3]).1
          (_from_mem_table_entry [c0, c1, c2, c3]).2 = [c0, c1, c2, c3] := by
  constructor
  · have e := from_to_entry addr size ha hs []
    rw [List.append_nil] at e
    exact e
  · exact to_from_cells c0 c1 c2 c3 h0 h1 h2 h3

theorem mem_table_entry_round_trip_witness :
    ((0x80000000 : Nat) < 2 ^ 64 ∧ (0x123456789 : Nat) < 2 ^ 64 ∧ (0x78563412 : Nat) < 2 ^ 32
        ∧ (0 : Nat) < 2 ^ 32 ∧ (0xEFBEADDE : Nat) < 2 ^ 32 ∧ (0x40 : Nat) < 2 ^ 32)
      ∧ _to_mem_table_entry 0x80000000 0x123456789 = [0, 0x80, 0x01000000, 0x89674523]
      ∧ _from_mem_table_entry (_to_mem_table_entry 0x80000000 0x123456789)
        = (0x80000000, 0x123456789)
      ∧ _to_mem_table_entry (_from_mem_table_entry [0x78563412, 0, 0xEFBEADDE, 0x40]).1
          (_from_mem_table_entry [0x78563412, 0, 0xEFBEADDE, 0x40]).2
        = [0x78563412, 0, 0xEFBEADDE, 0x40] :=
  ⟨by decide, by decide,
    mem_table_entry_round_trip 0x80000000 0x123456789 0x78563412 0 0xEFBEADDE 0x40
      (by decide) (by decide) (by decide) (by decide) (by decide) (by decide)⟩

/-- C28: for an entry with `size > 0` and `start + size < 2 ^ 64` and an exclusion with
`x ≤ y`, every entry `copy_or_split_memory_table_entries` emits has a size greater than 0 and
not greater than the source size, so none of them is the sentinel `{0, 0}`. -/
theorem copy_or_split_sizes (source_entry : List Nat) (x y : Nat)
    (hpos : 0 < (_from_mem_table_entry source_entry).2)
    (hno : (_from_mem_table_entry source_entry).1 + (_from_mem_table_entry source_entry).2
      < 2 ^ 64)
    (hxy : x ≤ y) :
    ∀ j, j < (copy_or_split_memory_table_entries source_entry x y).1 →
      0 < (entry_at (copy_or_split_memory_table_entries source_entry x y).2 j).2
        ∧ (entry_at (copy_or_split_memory_table_entries source_entry x y).2 j).2
            ≤ (_from_mem_table_entry source_entry).2
        ∧ entry_at (copy_or_split_memory_table_entries source_entry x y).2 j ≠ (0, 0) := by
  intro j hj
  rw [copy_or_split_eq] at hj ⊢
  have hb := split_pieces_lt _ (_from_mem_table_entry source_entry).2 x y
    (from_entry_lt source_entry).1
  have e := entry_at_table_of _ [] hb j hj
  rw [List.append_nil] at e
  rw [e]
  have hmem := List.get_mem (split_pieces (_from_mem_table_entry source_entry).1
    (_from_mem_table_entry source_entry).2 x y) j hj
  generalize (split_pieces (_from_mem_table_entry source_entry).1
    (_from_mem_table_entry source_entry).2 x y).get ⟨j, hj⟩ = q at hmem
  have hq : 0 < q.2 ∧ q.2 ≤ (_from_mem_table_entry source_entry).2 := by
    unfold split_pieces at hmem
    rw [Nat.mod_eq_of_lt hno, List.mem_append] at hmem
    rcases hmem with hm | hm
    · split_ifs at hm with h1
      · simp only [List.mem_singleton] at hm
        subst hm
        show 0 < (min _ x + 2 ^ 64 - _) % 2 ^ 64 ∧ (min _ x + 2 ^ 64 - _) % 2 ^ 64 ≤ _
        omega
      · simp at hm
    · split_ifs at hm with h2
      · simp only [List.mem_singleton] at hm
        subst hm
        show 0 < (_ + 2 ^ 64 - max _ y) % 2 ^ 64 ∧ (_ + 2 ^ 64 - max _ y) % 2 ^ 64 ≤ _
        omega
      · simp at hm
  refine ⟨hq.1, hq.2, ?_⟩
  intro hc
  rw [hc] at hq
  exact absurd hq.1 (by decide)

theorem copy_or_split_sizes_witness :
    (0 < (_from_mem_table_entry (table_of [(0x0, 0x40000000)])).2
      ∧ (_from_mem_table_entry (table_of [(0x0, 0x40000000)])).1
          + (_from_mem_table_entry (table_of [(0x0, 0x40000000)])).2 < 2 ^ 64
      ∧ 0x10000000 ≤ 0x10100000)
      ∧ ∀ j, j < (copy_or_split_memory_table_entries (table_of [(0x0, 0x40000000)])
          0x10000000 0x10100000).1 →
        0 < (entry_at (copy_or_split_memory_table_entries (table_of [(0x0, 0x40000000)])
            0x10000000 0x10100000).2 j).2
          ∧ (entry_at (copy_or_split_memory_table_entries (table_of [(0x0, 0x40000000)])
              0x10000000 0x10100000).2 j).2
            ≤ (_from_mem_table_entry (table_of [(0x0, 0x40000000)])).2
          ∧ entry_at (copy_or_split_memory_table_entries (table_of [(0x0, 0x40000000)])
              0x10000000 0x10100000).2 j ≠ (0, 0) :=
  ⟨⟨by decide, by decide, by decide⟩,
    copy_or_split_sizes (table_of [(0x0, 0x40000000)]) 0x10000000 0x10100000
      (by decide) (by decide) (by decide)⟩

/-- C29: the sentinel `{0, 0}` is split like any other entry: for `exclude_start > 0`,
`copy_or_split_memory_table_entries` emits exactly one entry, `{0, 0}`, and for
`exclude_start = 0` it emits none; and the loop of `update_fdt_to_exclude_memory` does not
stop at a sentinel: when it succeeds, its table is the concatenation of what every source
entry yields, those after a sentinel included. -/
theorem sentinel_is_an_ordinary_entry (source_entry : List Nat) (x y : Nat)
    (hs : _from_mem_table_entry source_entry = (0, 0)) :
    (0 < x → copy_or_split_memory_table_entries source_entry x y
        = (1, _to_mem_table_entry 0 0))
      ∧ (x = 0 → copy_or_split_memory_table_entries source_entry x y = (0, []))
      ∧ ∀ src t c, rewrite_memory_table src x y = .ok (t, c) →
        t = (List.range (source_entries_of_len (4 * src.length))).flatMap
          (fun k => (copy_or_split_memory_table_entries (src.drop (k * 4)) x y).2) := by
  refine ⟨?_, ?_, ?_⟩
  · intro hx
    rw [copy_or_split_eq, hs]
    have h2 : ¬ (0 + 0) % 2 ^ 64 > y := by omega
    have e : (min ((0 + 0) % 2 ^ 64) x + 2 ^ 64 - 0) % 2 ^ 64 = 0 := by omega
    simp only [split_pieces, hx, h2, if_true, if_false, List.append_nil, e,
      List.length_singleton, table_of, List.flatMap_cons, List.flatMap_nil]
  · intro hx
    rw [copy_or_split_eq, hs]
    have h1 : ¬ 0 < x := by omega
    have h2 : ¬ (0 + 0) % 2 ^ 64 > y := by omega
    simp only [split_pieces, h1, h2, if_false, List.append_nil]
    rfl
  · intro src t c h
    exact (rewrite_ok src x y t c h).1

theorem sentinel_is_an_ordinary_entry_witness :
    _from_mem_table_entry (table_of [(0, 0), (0x2000, 0x1000)]) = (0, 0)
      ∧ rewrite_memory_table (table_of [(0, 0), (0x2000, 0x1000)]) 0x10000000 0x10100000
        = .ok (table_of [(0, 0), (0x2000, 0x1000)], 2)
      ∧ rewrite_memory_table (table_of [(0, 0), (0x2000, 0x1000)]) 0x0 0x1000
        = .ok (table_of [(0x2000, 0x1000)], 1)
      ∧ (0 < 0x10000000 →
          copy_or_split_memory_table_entries (table_of [(0, 0), (0x2000, 0x1000)])
            0x10000000 0x10100000 = (1, _to_mem_table_entry 0 0))
      ∧ (0x10000000 = 0 →
          copy_or_split_memory_table_entries (table_of [(0, 0), (0x2000, 0x1000)])
            0x10000000 0x10100000 = (0, []))
      ∧ ∀ src t c, rewrite_memory_table src 0x10000000 0x10100000 = .ok (t, c) →
        t = (List.range (source_entries_of_len (4 * src.length))).flatMap
          (fun k => (copy_or_split_memory_table_entries (src.drop (k * 4))
            0x10000000 0x10100000).2) :=
  ⟨by decide, rfl, rfl,
    sentinel_is_an_ordinary_entry (table_of [(0, 0), (0x2000, 0x1000)]) 0x10000000 0x10100000
      (by decide)⟩

/-! ## Exactly when the capacity check fires -/

theorem rewrite_loop_error_exists (src : List Nat) (x y : Nat) (rem i : Nat) (tgt : List Nat)
    (cnt : Nat) (e : Int) (h : rewrite_loop src x y rem i tgt cnt = .error e) :
    ∃ k, k < rem ∧ MAX_MEM_TABLE_ENTRIES < cnt + ((List.range' i k).map
      (fun j => (copy_or_split_memory_table_entries (src.drop (j * 4)) x y).1)).sum + 2 := by
  induction rem generalizing i tgt cnt with
  | zero => simp [rewrite_loop] at h
  | succ rem ih =>
    rw [rewrite_loop] at h
    by_cases hcap : cnt + 2 > MAX_MEM_TABLE_ENTRIES
    · exact ⟨0, by omega, by simpa using hcap⟩
    · simp only [hcap, if_false] at h
      obtain ⟨k, hk, hfull⟩ := ih _ _ _ h
      refine ⟨k + 1, by omega, ?_⟩
      rw [List.range'_succ, List.map_cons, List.sum_cons]
      omega

theorem update_rc_of_rewrite_ok (fdt : Fdt) (x y : Nat) (out : Option Nat) (src t : List Nat)
    (c : Nat) (hn : 0 ≤ fdt.memory_node) (hreg : fdt.reg = some src)
    (hrw : rewrite_memory_table src x y = .ok (t, c)) :
    (update_fdt_to_exclude_memory fdt x y out).rc
      = if fdt.setprop_rc = 0 then SUCCESS else -fdt.setprop_rc := by
  unfold update_fdt_to_exclude_memory
  have hn2 : ¬ fdt.memory_node < 0 := by omega
  simp only [hn2, if_false, hreg, hrw, fdt_setprop]
  by_cases hs : fdt.setprop_rc = 0
  · simp [hs]
  · simp [hs]

theorem prefix_count_le (src : List Nat) (x y : Nat) (i : Nat) :
    ((List.range i).map
      (fun j => (copy_or_split_memory_table_entries (src.drop (j * 4)) x y).1)).sum ≤ 2 * i := by
  induction i with
  | zero => simp
  | succ i ih =>
    rw [List.range_succ, List.map_append, List.sum_append]
    have := copy_or_split_count_le (src.drop (i * 4)) x y
    simp only [List.map_cons, List.map_nil, List.sum_cons, List.sum_nil]
    omega

theorem prefix_count_ge (src : List Nat) (x y : Nat) (i : Nat)
    (h : ∀ k, k < i → 1 ≤ (copy_or_split_memory_table_entries (src.drop (k * 4)) x y).1) :
    i ≤ ((List.range i).map
      (fun j => (copy_or_split_memory_table_entries (src.drop (j * 4)) x y).1)).sum := by
  induction i with
  | zero => simp
  | succ i ih =>
    rw [List.range_succ, List.map_append, List.sum_append]
    have h1 := h i (by omega)
    have h2 := ih (fun k hk => h k (by omega))
    simp only [List.map_cons, List.map_nil, List.sum_cons, List.sum_nil]
    omega

theorem capacity_error_iff_aux (fdt : Fdt) (x y : Nat) (out : Option Nat) (src : List Nat)
    (hn : 0 ≤ fdt.memory_node) (hreg : fdt.reg = some src) (hset : fdt.setprop_rc ≤ 0) :
    (update_fdt_to_exclude_memory fdt x y out).rc = -FDT_ERR_NOSPACE
      ↔ ∃ i, i < source_entries_of_len (4 * src.length)
        ∧ MAX_MEM_TABLE_ENTRIES < ((List.range i).map
          (fun j => (copy_or_split_memory_table_entries (src.drop (j * 4)) x y).1)).sum + 2 := by
  constructor
  · intro hrc
    cases hrw : rewrite_memory_table src x y with
    | error e =>
      unfold rewrite_memory_table at hrw
      obtain ⟨k, hk, hfull⟩ := rewrite_loop_error_exists _ _ _ _ _ _ _ _ hrw
      rw [← List.range_eq_range'] at hfull
      exact ⟨k, hk, by omega⟩
    | ok r =>
      obtain ⟨t, c⟩ := r
      rw [update_rc_of_rewrite_ok fdt x y out src t c hn hreg hrw] at hrc
      unfold SUCCESS FDT_ERR_NOSPACE at hrc
      split_ifs at hrc
      omega
  · rintro ⟨i, hi, hfull⟩
    have hrw : rewrite_memory_table src x y = .error (-FDT_ERR_NOSPACE) := by
      unfold rewrite_memory_table
      apply rewrite_loop_fails src x y _ 0 [] 0 i hi
      rw [← List.range_eq_range']
      omega
    rw [update_of_rewrite_error fdt x y out src _ hn hreg hrw]

/-- C26 (amended): with the `/memory` node and its `reg` table present and a write-back that
returns 0 or a negative library code, `update_fdt_to_exclude_memory` returns
`-FDT_ERR_NOSPACE` if and only if, at some source entry `i`, the entries produced from the
entries before `i` plus 2 exceed `MAX_MEM_TABLE_ENTRIES`. So a table of 8 or more entries
whose first seven entries each produce at least one entry is rejected, and no table of at
most 4 entries is rejected for capacity. -/
theorem capacity_error_iff (fdt : Fdt) (x y : Nat) (out : Option Nat) (src : List Nat)
    (hn : 0 ≤ fdt.memory_node) (hreg : fdt.reg = some src) (hset : fdt.setprop_rc ≤ 0) :
    ((update_fdt_to_exclude_memory fdt x y out).rc = -FDT_ERR_NOSPACE
        ↔ ∃ i, i < source_entries_of_len (4 * src.length)
          ∧ MAX_MEM_TABLE_ENTRIES < ((List.range i).map
            (fun j => (copy_or_split_memory_table_entries (src.drop (j * 4)) x y).1)).sum + 2)
      ∧ (8 ≤ source_entries_of_len (4 * src.length) →
          (∀ k, k < 7 → 1 ≤ (copy_or_split_memory_table_entries (src.drop (k * 4)) x y).1) →
          (update_fdt_to_exclude_memory fdt x y out).rc = -FDT_ERR_NOSPACE)
      ∧ (source_entries_of_len (4 * src.length) ≤ 4 →
          (update_fdt_to_exclude_memory fdt x y out).rc ≠ -FDT_ERR_NOSPACE) := by
  have hiff := capacity_error_iff_aux fdt x y out src hn hreg hset
  refine ⟨hiff, ?_, ?_⟩
  · intro h8 hone
    rw [hiff]
    refine ⟨7, by omega, ?_⟩
    have := prefix_count_ge src x y 7 hone
    unfold MAX_MEM_TABLE_ENTRIES
    omega
  · intro h4 hrc
    rw [hiff] at hrc
    obtain ⟨i, hi, hfull⟩ := hrc
    have := prefix_count_le src x y i
    unfold MAX_MEM_TABLE_ENTRIES at hfull
    omega

theorem capacity_error_iff_witness :
    ((0 : Int) ≤ 0 ∧ (0 : Int) ≤ 0)
      ∧ (update_fdt_to_exclude_memory
          ⟨0, some (table_of [(0, 9), (10, 9), (20, 9), (30, 9), (40, 9), (50, 9), (60, 9),
            (70, 9)]), 0⟩ 100 200 none).rc = -FDT_ERR_NOSPACE
      ∧ ((update_fdt_to_exclude_memory
          ⟨0, some (table_of [(0, 9), (10, 9), (20, 9), (30, 9), (40, 9), (50, 9), (60, 9),
            (70, 9)]), 0⟩ 100 200 none).rc = -FDT_ERR_NOSPACE
        ↔ ∃ i, i < source_entries_of_len (4 * (table_of [(0, 9), (10, 9), (20, 9), (30, 9),
            (40, 9), (50, 9), (60, 9), (70, 9)]).length)
          ∧ MAX_MEM_TABLE_ENTRIES < ((List.range i).map
            (fun j => (copy_or_split_memory_table_entries
              ((table_of [(0, 9), (10, 9), (20, 9), (30, 9), (40, 9), (50, 9), (60, 9),
                (70, 9)]).drop (j * 4)) 100 200).1)).sum + 2)
      ∧ (8 ≤ source_entries_of_len (4 * (table_of [(0, 9), (10, 9), (20, 9), (30, 9),
            (40, 9), (50, 9), (60, 9), (70, 9)]).length) →
          (∀ k, k < 7 → 1 ≤ (copy_or_split_memory_table_entries
            ((table_of [(0, 9), (10, 9), (20, 9), (30, 9), (40, 9), (50, 9), (60, 9),
              (70, 9)]).drop (k * 4)) 100 200).1) →
          (update_fdt_to_exclude_memory
            ⟨0, some (table_of [(0, 9), (10, 9), (20, 9), (30, 9), (40, 9), (50, 9), (60, 9),
              (70, 9)]), 0⟩ 100 200 none).rc = -FDT_ERR_NOSPACE)
      ∧ (source_entries_of_len (4 * (table_of [(0, 9), (10, 9), (20, 9), (30, 9),
            (40, 9), (50, 9), (60, 9), (70, 9)]).length) ≤ 4 →
          (update_fdt_to_exclude_memory
            ⟨0, some (table_of [(0, 9), (10, 9), (20, 9), (30, 9), (40, 9), (50, 9), (60, 9),
              (70, 9)]), 0⟩ 100 200 none).rc ≠ -FDT_ERR_NOSPACE) :=
  ⟨⟨by decide, by decide⟩, by decide,
    capacity_error_iff
      ⟨0, some (table_of [(0, 9), (10, 9), (20, 9), (30, 9), (40, 9), (50, 9), (60, 9),
        (70, 9)]), 0⟩ 100 200 none _ (by decide) rfl (by decide)⟩

/-- C26 (as stated) fails in its consequence for tables of 8 or more entries: eight banks of
which the first lies inside the exclusion `[0, 10)` are not rejected, since that bank produces
no entry and the count before the last bank is 6. -/
theorem eight_entries_not_rejected :
    source_entries_of_len (4 * (table_of [(0, 9), (10, 9), (20, 9), (30, 9), (40, 9), (50, 9),
        (60, 9), (70, 9)]).length) = 8
      ∧ (update_fdt_to_exclude_memory
          ⟨0, some (table_of [(0, 9), (10, 9), (20, 9), (30, 9), (40, 9), (50, 9), (60, 9),
            (70, 9)]), 0⟩ 0 10 none).rc = SUCCESS
      ∧ rewrite_memory_table
          (table_of [(0, 9), (10, 9), (20, 9), (30, 9), (40, 9), (50, 9), (60, 9), (70, 9)])
          0 10
        = .ok (table_of [(10, 9), (20, 9), (30, 9), (40, 9), (50, 9), (60, 9), (70, 9)], 7) :=
  ⟨by decide, by decide, rfl⟩

/-! ## Order of the rewritten table -/

theorem split_pieces_within (a s x y : Nat) (hs : s < 2 ^ 64)
    (hno : a + s ≤ 2 ^ 64) :
    ∀ q ∈ split_pieces a s x y, a ≤ q.1 ∧ q.1 + q.2 ≤ a + s := by
  intro q hq
  unfold split_pieces at hq
  rw [List.mem_append] at hq
  rcases hq with hq | hq
  · split_ifs at hq with h1
    · simp only [List.mem_singleton] at hq
      subst hq
      refine ⟨le_refl _, ?_⟩
      show a + (min ((a + s) % 2 ^ 64) x + 2 ^ 64 - a) % 2 ^ 64 ≤ a + s
      omega
    · simp at hq
  · split_ifs at hq with h2
    · simp only [List.mem_singleton] at hq
      subst hq
      constructor
      · show a ≤ max a y
        omega
      · show max a y + ((a + s) % 2 ^ 64 + 2 ^ 64 - max a y) % 2 ^ 64 ≤ a + s
        omega
    · simp at hq

theorem split_pieces_chain (a s x y : Nat) (hxy : x ≤ y) :
    (split_pieces a s x y).Pairwise (fun p q => p.1 + p.2 ≤ q.1) := by
  unfold split_pieces
  by_cases h1 : a < x <;> by_cases h2 : (a + s) % 2 ^ 64 > y
  · simp only [h1, h2, if_true, List.singleton_append, List.pairwise_cons, List.mem_singleton,
      forall_eq, List.not_mem_nil, false_implies, implies_true, List.Pairwise.nil, and_true]
    show a + (min ((a + s) % 2 ^ 64) x + 2 ^ 64 - a) % 2 ^ 64 ≤ max a y
    omega
  · simp only [h1, h2, if_true, if_false, List.append_nil, List.pairwise_singleton]
  · simp only [h1, h2, if_true, if_false, List.nil_append, List.pairwise_singleton]
  · simp only [h1, h2, if_false, List.append_nil, List.Pairwise.nil]

theorem all_pieces_chain (src : List Nat) (x y : Nat) (hxy : x ≤ y)
    (hno : ∀ i, i < source_entries_of_len (4 * src.length) →
      (entry_at src i).1 + (entry_at src i).2 ≤ 2 ^ 64)
    (hchain : ∀ i j, i < j → j < source_entries_of_len (4 * src.length) →
      (entry_at src i).1 + (entry_at src i).2 ≤ (entry_at src j).1) :
    (all_pieces src x y).Pairwise (fun p q => p.1 + p.2 ≤ q.1) := by
  unfold all_pieces
  rw [List.pairwise_flatMap]
  constructor
  · intro k hk
    exact split_pieces_chain _ _ x y hxy
  · apply List.Pairwise.imp_of_mem _ (List.pairwise_lt_range _)
    intro i j hi hj hij p hp q hq
    have hi2 := List.mem_range.mp hi
    have hj2 := List.mem_range.mp hj
    have h1 : (entry_at src i).1 ≤ p.1 ∧ p.1 + p.2 ≤ (entry_at src i).1 + (entry_at src i).2 :=
      split_pieces_within _ _ x y (from_entry_lt _).2 (hno i hi2) p hp
    have h2 : (entry_at src j).1 ≤ q.1 ∧ q.1 + q.2 ≤ (entry_at src j).1 + (entry_at src j).2 :=
      split_pieces_within _ _ x y (from_entry_lt _).2 (hno j hj2) q hq
    have hij2 : i < j := hij
    have h3 := hchain i j hij2 hj2
    show p.1 + p.2 ≤ q.1
    omega

theorem chain_of_sorted_disjoint (table : List Nat) (entries : Nat)
    (hpos : ∀ i, i < entries → 0 < (entry_at table i).2)
    (hsorted : sorted_by_start table entries) (hdisj : non_overlapping table entries) :
    ∀ i j, i < j → j < entries →
      (entry_at table i).1 + (entry_at table i).2 ≤ (entry_at table j).1 := by
  intro i j hij hj
  have h1 := hsorted i j hij hj
  have h2 := hdisj i j hij hj (entry_at table j).1
  have h3 := hpos j hj
  omega

/-- C27 (amended): for an exclusion `[x, y)` with `x ≤ y` and a source table whose entries
have nonzero size, are sorted by ascending start and pairwise non-overlapping, with
`start + size` not exceeding `2 ^ 64`, the table the rewrite builds is again sorted by
ascending start and pairwise non-overlapping. -/
theorem rewrite_keeps_order (src : List Nat) (x y : Nat) (t : List Nat) (c : Nat)
    (hxy : x ≤ y) (hrw : rewrite_memory_table src x y = .ok (t, c))
    (hpos : ∀ i, i < source_entries_of_len (4 * src.length) → 0 < (entry_at src i).2)
    (hno : ∀ i, i < source_entries_of_len (4 * src.length) →
      (entry_at src i).1 + (entry_at src i).2 ≤ 2 ^ 64)
    (hsorted : sorted_by_start src (source_entries_of_len (4 * src.length)))
    (hdisj : non_overlapping src (source_entries_of_len (4 * src.length))) :
    sorted_by_start t c ∧ non_overlapping t c := by
  obtain ⟨rfl, rfl⟩ := rewrite_ok_pieces src x y t c hrw
  have hchain := all_pieces_chain src x y hxy hno
    (chain_of_sorted_disjoint src _ hpos hsorted hdisj)
  rw [List.pairwise_iff_getElem] at hchain
  have hb := all_pieces_lt src x y
  have key : ∀ i j, i < j → j < (all_pieces src x y).length →
      (entry_at (table_of (all_pieces src x y)) i).1
          + (entry_at (table_of (all_pieces src x y)) i).2
        ≤ (entry_at (table_of (all_pieces src x y)) j).1 := by
    intro i j hij hj
    have hi : i < (all_pieces src x y).length := by omega
    have ei := entry_at_table_of (all_pieces src x y) [] hb i hi
    have ej := entry_at_table_of (all_pieces src x y) [] hb j hj
    rw [List.append_nil] at ei ej
    rw [ei, ej]
    exact hchain i j hi hj hij
  constructor
  · intro i j hij hj
    have := key i j hij hj
    omega
  · intro i j hij hj p hp
    have := key i j hij hj
    omega

theorem rewrite_keeps_order_witness :
    (0x10000000 ≤ 0x10100000
      ∧ rewrite_memory_table (table_of [(0x0, 0x40000000), (0x80000000, 0x1000)])
          0x10000000 0x10100000
        = .ok (table_of [(0x0, 0x10000000), (0x10100000, 0x2FF00000), (0x80000000, 0x1000)], 3)
      ∧ sorted_by_start (table_of [(0x0, 0x40000000), (0x80000000, 0x1000)])
          (source_entries_of_len
            (4 * (table_of [(0x0, 0x40000000), (0x80000000, 0x1000)]).length))
      ∧ non_overlapping (table_of [(0x0, 0x40000000), (0x80000000, 0x1000)])
          (source_entries_of_len
            (4 * (table_of [(0x0, 0x40000000), (0x80000000, 0x1000)]).length)))
      ∧ sorted_by_start
          (table_of [(0x0, 0x10000000), (0x10100000, 0x2FF00000), (0x80000000, 0x1000)]) 3
      ∧ non_overlapping
          (table_of [(0x0, 0x10000000), (0x10100000, 0x2FF00000), (0x80000000, 0x1000)]) 3 := by
  have e0 : entry_at (table_of [(0x0, 0x40000000), (0x80000000, 0x1000)]) 0
      = (0x0, 0x40000000) := by decide
  have e1 : entry_at (table_of [(0x0, 0x40000000), (0x80000000, 0x1000)]) 1
      = (0x80000000, 0x1000) := by decide
  have en : source_entries_of_len
      (4 * (table_of [(0x0, 0x40000000), (0x80000000, 0x1000)]).length) = 2 := by decide
  have hsorted : sorted_by_start (table_of [(0x0, 0x40000000), (0x80000000, 0x1000)])
      (source_entries_of_len
        (4 * (table_of [(0x0, 0x40000000), (0x80000000, 0x1000)]).length)) := by
    intro i j hij hj
    rw [en] at hj
    obtain ⟨rfl, rfl⟩ : i = 0 ∧ j = 1 := by omega
    rw [e0, e1]
    decide
  have hdisj : non_overlapping (table_of [(0x0, 0x40000000), (0x80000000, 0x1000)])
      (source_entries_of_len
        (4 * (table_of [(0x0, 0x40000000), (0x80000000, 0x1000)]).length)) := by
    intro i j hij hj p hp
    rw [en] at hj
    obtain ⟨rfl, rfl⟩ : i = 0 ∧ j = 1 := by omega
    rw [e0, e1] at hp
    omega
  exact ⟨⟨by decide, rfl, hsorted, hdisj⟩,
    rewrite_keeps_order (table_of [(0x0, 0x40000000), (0x80000000, 0x1000)])
      0x10000000 0x10100000 _ 3 (by decide) rfl (by decide) (by decide) hsorted hdisj⟩

/-- C27 (as stated) fails for a table that ends in the sentinel after a bank at address 0:
`[{0x0, 0x40000000}, {0, 0}]` is sorted by ascending start and its entries share no address,
yet with the exclusion `[0x10000000, 0x10100000)` the rewrite gives
`[{0x0, 0x10000000}, {0x10100000, 0x2FF00000}, {0, 0}]`, whose last start is below the one
before it. -/
theorem rewrite_breaks_order_with_sentinel :
    0x10000000 ≤ 0x10100000
      ∧ sorted_by_start (table_of [(0x0, 0x40000000), (0, 0)]) 2
      ∧ non_overlapping (table_of [(0x0, 0x40000000), (0, 0)]) 2
      ∧ (∀ i, i < 2 → (entry_at (table_of [(0x0, 0x40000000), (0, 0)]) i).1
          + (entry_at (table_of [(0x0, 0x40000000), (0, 0)]) i).2 ≤ 2 ^ 64)
      ∧ rewrite_memory_table (table_of [(0x0, 0x40000000), (0, 0)]) 0x10000000 0x10100000
        = .ok (table_of [(0x0, 0x10000000), (0x10100000, 0x2FF00000), (0, 0)], 3)
      ∧ ¬ sorted_by_start
          (table_of [(0x0, 0x10000000), (0x10100000, 0x2FF00000), (0, 0)]) 3 := by
  have e0 : entry_at (table_of [(0x0, 0x40000000), (0, 0)]) 0 = (0x0, 0x40000000) := by decide
  have e1 : entry_at (table_of [(0x0, 0x40000000), (0, 0)]) 1 = (0, 0) := by decide
  refine ⟨by decide, ?_, ?_, by decide, rfl, ?_⟩
  · intro i j hij hj
    obtain ⟨rfl, rfl⟩ : i = 0 ∧ j = 1 := by omega
    rw [e0, e1]
  · intro i j hij hj p hp
    obtain ⟨rfl, rfl⟩ : i = 0 ∧ j = 1 := by omega
    rw [e0, e1] at hp
    omega
  · intro h
    have h12 := h 1 2 (by decide) (by decide)
    revert h12
    decide

/-! ## `strnlen` and `strlen` -/

theorem load_byte_mod (mem : Nat → Nat) (a : Nat) : load_byte mem (a % 2 ^ 64) = load_byte mem a := by
  unfold load_byte
  rw [Nat.mod_mod]

theorem strnlen_loop_spec (mem : Nat → Nat) (s length max : Nat) (hs : is_string mem s length)
    (hlen : length < 2 ^ 64) (fuel n : Nat) (hn : n ≤ length) (hmax : n < max)
    (hfuel : length - n < fuel) :
    strnlen_loop mem max fuel ((s + n) % 2 ^ 64) n = some (min length max) := by
  induction fuel generalizing n with
  | zero => omega
  | succ fuel ih =>
    rw [strnlen_loop, load_byte_mod]
    by_cases hend : n = length
    · subst hend
      simp only [hs.2, ne_eq, not_true_eq_false, if_false]
      congr 1
      omega
    · have hlt : n < length := by omega
      have hb := hs.1 n hlt
      simp only [hb, ne_eq, not_false_eq_true, if_true]
      have e1 : (n + 1) % 2 ^ 64 = n + 1 := Nat.mod_eq_of_lt (by omega)
      have e2 : ((s + n) % 2 ^ 64 + 1) % 2 ^ 64 = (s + (n + 1)) % 2 ^ 64 := by omega
      rw [e1, e2]
      by_cases hm : n + 1 = max
      · simp only [hm, if_true]
        congr 1
        omega
      · simp only [hm, if_false]
        exact ih (n + 1) (by omega) (by omega) (by omega)

theorem strnlen_of_positive_limit (mem : Nat → Nat) (s length max fuel : Nat)
    (hs : is_string mem s length) (hlen : length < 2 ^ 64) (hmax : 0 < max)
    (hfuel : length < fuel) :
    strnlen mem fuel s max = some (min length max) := by
  have h := strnlen_loop_spec mem s length max hs hlen fuel 0 (by omega) hmax (by omega)
  unfold strnlen
  have e : load_byte mem ((s + 0) % 2 ^ 64) = load_byte mem s := by
    rw [load_byte_mod, Nat.add_zero]
  cases fuel with
  | zero => omega
  | succ fuel =>
    rw [strnlen_loop] at h ⊢
    rw [e] at h
    have e2 : ((s + 0) % 2 ^ 64 + 1) % 2 ^ 64 = (s + 1) % 2 ^ 64 := by omega
    rw [e2] at h
    exact h

theorem strlen_returns_length (mem : Nat → Nat) (s length fuel : Nat)
    (hs : is_string mem s length) (hlen : length < 2 ^ 64) (hfuel : length < fuel) :
    strlen mem fuel s = some length := by
  unfold strlen
  rw [strnlen_of_positive_limit mem s length SIZE_MAX fuel hs hlen (by decide) hfuel]
  congr 1
  unfold SIZE_MAX
  omega

/-- C21 (code at the failing input): for the string `Hello` and the limit 0, `strnlen`
tests the limit only after it has counted a character, never meets it, and returns the whole
length 5 instead of 0; with the limits 3 and 25 it returns 3 and 5, and `strlen` returns 5. -/
theorem strnlen_ignores_zero_limit :
    is_string (bytes_at 0x1000 [72, 101, 108, 108, 111]) 0x1000 5
      ∧ strnlen (bytes_at 0x1000 [72, 101, 108, 108, 111]) 8 0x1000 0 = some 5
      ∧ strnlen (bytes_at 0x1000 [72, 101, 108, 108, 111]) 8 0x1000 3 = some 3
      ∧ strnlen (bytes_at 0x1000 [72, 101, 108, 108, 111]) 8 0x1000 25 = some 5
      ∧ strlen (bytes_at 0x1000 [72, 101, 108, 108, 111]) 8 0x1000 = some 5 := by
  refine ⟨⟨?_, by decide⟩, by decide, by decide, by decide, by decide⟩
  intro i hi
  interval_cases i <;> decide

/-! ## `memcmp` and `memchr`: the `int` counter -/

theorem int_to_size_t_nat (k : Nat) (hk : k < 2 ^ 64) : int_to_size_t (k : Int) = k := by
  unfold int_to_size_t
  omega

theorem wrapping_incr_nat (k : Nat) (hk : k + 1 < 2 ^ 31) :
    wrapping_incr (k : Int) = ((k + 1 : Nat) : Int) := by
  unfold wrapping_incr
  omega

theorem wrapping_incr_max : wrapping_incr ((2 ^ 31 - 1 : Nat) : Int) = -(2 ^ 31) := by
  decide

theorem int_to_size_t_min : int_to_size_t (-(2 ^ 31)) = 2 ^ 64 - 2 ^ 31 := by
  decide

theorem memcmp_loop_advance (incr : Int → Int) (mem : Nat → Nat) (s1 s2 n : Nat) (d k fuel : Nat)
    (hn : k + d ≤ n) (hn2 : n < 2 ^ 64)
    (hstep : ∀ j : Nat, j < k + d → incr (j : Int) = ((j + 1 : Nat) : Int))
    (heq : ∀ j, k ≤ j → j < k + d → load_byte mem (s1 + j) = load_byte mem (s2 + j)) :
    memcmp_loop incr mem s1 s2 n (fuel + d) (k : Int)
      = memcmp_loop incr mem s1 s2 n fuel ((k + d : Nat) : Int) := by
  induction d generalizing k with
  | zero => rfl
  | succ d ih =>
    have e : fuel + (d + 1) = (fuel + d) + 1 := by omega
    rw [e, memcmp_loop, int_to_size_t_nat k (by omega)]
    have hlt : k < n := by omega
    simp only [hlt, if_true, heq k (le_refl k) (by omega), ne_eq, not_true_eq_false, if_false]
    rw [hstep k (by omega), ih (k + 1) (by omega) (fun j hj => hstep j (by omega))
      (fun j h1 h2 => heq j (by omega) (by omega))]
    congr 2
    omega

/-- With the wrapping increment, a `memcmp` over more than `INT_MAX` bytes whose first `2 ^ 31`
bytes are equal returns 0 whatever follows: the counter turns negative after index
`2 ^ 31 - 1` and converts to a `size_t` above `n`. -/
theorem memcmp_wrapping_past_int_max (mem : Nat → Nat) (s1 s2 n : Nat) (hn : 2 ^ 31 ≤ n)
    (hn2 : n ≤ 2 ^ 64 - 2 ^ 31)
    (heq : ∀ j, j < 2 ^ 31 → load_byte mem (s1 + j) = load_byte mem (s2 + j)) :
    memcmp wrapping_incr mem (2 ^ 31 + 1) s1 s2 n = some 0 := by
  unfold memcmp
  have e : (2 ^ 31 + 1 : Nat) = 2 + (2 ^ 31 - 1) := by norm_num
  have h0 : (0 : Int) = ((0 : Nat) : Int) := rfl
  rw [e, h0, memcmp_loop_advance wrapping_incr mem s1 s2 n (2 ^ 31 - 1) 0 2 (by omega)
    (by omega) (fun j hj => wrapping_incr_nat j (by omega)) (fun j _ h2 => heq j (by omega))]
  have e2 : (0 + (2 ^ 31 - 1) : Nat) = 2 ^ 31 - 1 := by norm_num
  rw [e2, memcmp_loop, int_to_size_t_nat _ (by norm_num)]
  have hlt : 2 ^ 31 - 1 < n := by omega
  simp only [hlt, if_true, heq (2 ^ 31 - 1) (by norm_num), ne_eq, not_true_eq_false, if_false]
  rw [wrapping_incr_max, memcmp_loop, int_to_size_t_min]
  have hge : ¬ 2 ^ 64 - 2 ^ 31 < n := by omega
  simp only [hge, if_false]
  rfl

theorem memchr_loop_advance (incr : Int → Int) (mem : Nat → Nat) (s c n : Nat) (d k fuel : Nat)
    (hn : k + d ≤ n) (hn2 : n < 2 ^ 64)
    (hstep : ∀ j : Nat, j < k + d → incr (j : Int) = ((j + 1 : Nat) : Int))
    (hne : ∀ j, k ≤ j → j < k + d → load_byte mem (s + j) ≠ c % 256) :
    memchr_loop incr mem s c n (fuel + d) (k : Int)
      = memchr_loop incr mem s c n fuel ((k + d : Nat) : Int) := by
  induction d generalizing k with
  | zero => rfl
  | succ d ih =>
    have e : fuel + (d + 1) = (fuel + d) + 1 := by omega
    rw [e, memchr_loop, int_to_size_t_nat k (by omega)]
    have hlt : k < n := by omega
    simp only [hlt, if_true, hne k (le_refl k) (by omega), if_false]
    rw [hstep k (by omega), ih (k + 1) (by omega) (fun j hj => hstep j (by omega))
      (fun j h1 h2 => hne j (by omega) (by omega))]
    congr 2
    omega

/-- With the wrapping increment, a `memchr` over more than `INT_MAX` bytes whose first `2 ^ 31`
bytes are not the byte looked for returns NULL whatever follows. -/
theorem memchr_wrapping_past_int_max (mem : Nat → Nat) (s c n : Nat) (hn : 2 ^ 31 ≤ n)
    (hn2 : n ≤ 2 ^ 64 - 2 ^ 31)
    (hne : ∀ j, j < 2 ^ 31 → load_byte mem (s + j) ≠ c % 256) :
    memchr wrapping_incr mem (2 ^ 31 + 1) s c n = some 0 := by
  unfold memchr
  have e : (2 ^ 31 + 1 : Nat) = 2 + (2 ^ 31 - 1) := by norm_num
  have h0 : (0 : Int) = ((0 : Nat) : Int) := rfl
  rw [e, h0, memchr_loop_advance wrapping_incr mem s c n (2 ^ 31 - 1) 0 2 (by omega)
    (by omega) (fun j hj => wrapping_incr_nat j (by omega)) (fun j _ h2 => hne j (by omega))]
  have e2 : (0 + (2 ^ 31 - 1) : Nat) = 2 ^ 31 - 1 := by norm_num
  rw [e2, memchr_loop, int_to_size_t_nat _ (by norm_num)]
  have hlt : 2 ^ 31 - 1 < n := by omega
  simp only [hlt, if_true, hne (2 ^ 31 - 1) (by norm_num), if_false]
  rw [wrapping_incr_max, memchr_loop, int_to_size_t_min]
  have hge : ¬ 2 ^ 64 - 2 ^ 31 < n := by omega
  simp only [hge, if_false]

theorem memcpy_loop_spec (dest src : Nat) (count i : Nat) (mem : Nat → Nat)
    (hn : i + count ≤ 2 ^ 64)
    (hdisj : ∀ j k, j < i + count → k < i + count →
      (dest + j) % 2 ^ 64 ≠ (src + k) % 2 ^ 64) :
    (∀ a, (∀ j, i ≤ j → j < i + count → a ≠ (dest + j) % 2 ^ 64) →
        memcpy_loop dest src count i mem a = mem a)
      ∧ (∀ j, i ≤ j → j < i + count →
        memcpy_loop dest src count i mem ((dest + j) % 2 ^ 64) = load_byte mem (src + j)) := by
  induction count generalizing i mem with
  | zero =>
    refine ⟨fun a _ => rfl, ?_⟩
    intro j h1 h2
    omega
  | succ count ih =>
    have hstep := ih (i + 1) (store_byte mem (dest + i) (load_byte mem (src + i)))
      (by omega) (fun j k hj hk => hdisj j k (by omega) (by omega))
    obtain ⟨hframe, hcopy⟩ := hstep
    constructor
    · intro a ha
      rw [memcpy_loop, hframe a (fun j h1 h2 => ha j (by omega) (by omega))]
      have hne := ha i (le_refl i) (by omega)
      simp only [store_byte, hne, if_false]
    · intro j h1 h2
      rw [memcpy_loop]
      by_cases hj : j = i
      · subst hj
        rw [hframe _ (fun k hk1 hk2 => by omega)]
        simp only [store_byte, if_true]
        unfold load_byte
        exact Nat.mod_mod _ _
      · rw [hcopy j (by omega) (by omega)]
        have hne : (src + j) % 2 ^ 64 ≠ (dest + i) % 2 ^ 64 :=
          fun hc => hdisj i j (by omega) (by omega) hc.symm
        simp only [load_byte, store_byte, hne, if_false]

/-- C24: after `memcpy(dest, src, n)` on buffers that do not overlap, the first `n` bytes at
`dest` are the first `n` bytes at `src`, every byte outside those `n` bytes of `dest` is
unchanged, and the value returned is `dest`. -/
theorem memcpy_copies (mem : Nat → Nat) (dest src n : Nat) (hn : n < 2 ^ 64)
    (hdisj : ∀ j k, j < n → k < n → (dest + j) % 2 ^ 64 ≠ (src + k) % 2 ^ 64) :
    (memcpy mem dest src n).1 = dest
      ∧ (∀ j, j < n → load_byte (memcpy mem dest src n).2 (dest + j) = load_byte mem (src + j))
      ∧ (∀ a, (∀ j, j < n → a ≠ (dest + j) % 2 ^ 64) → (memcpy mem dest src n).2 a = mem a) := by
  obtain ⟨hframe, hcopy⟩ := memcpy_loop_spec dest src n 0 mem (by omega)
    (fun j k hj hk => hdisj j k (by omega) (by omega))
  refine ⟨rfl, ?_, ?_⟩
  · intro j hj
    show (memcpy_loop dest src n 0 mem ((dest + j) % 2 ^ 64)) % 256 = _
    rw [hcopy j (by omega) (by omega)]
    unfold load_byte
    exact Nat.mod_mod _ _
  · intro a ha
    exact hframe a (fun j _ hj => ha j (by omega))

theorem memcpy_copies_witness :
    ((4 : Nat) < 2 ^ 64
      ∧ ∀ j k, j < 4 → k < 4 → (0x2000 + j) % 2 ^ 64 ≠ (0x1000 + k) % 2 ^ 64)
      ∧ (memcpy (bytes_at 0x1000 [1, 2, 3, 4, 5, 6]) 0x2000 0x1000 4).2 0x2003 = 4
      ∧ (memcpy (bytes_at 0x1000 [1, 2, 3, 4, 5, 6]) 0x2000 0x1000 4).2 0x2004 = 0
      ∧ (memcpy (bytes_at 0x1000 [1, 2, 3, 4, 5, 6]) 0x2000 0x1000 4).1 = 0x2000
      ∧ (∀ j, j < 4 →
        load_byte (memcpy (bytes_at 0x1000 [1, 2, 3, 4, 5, 6]) 0x2000 0x1000 4).2 (0x2000 + j)
          = load_byte (bytes_at 0x1000 [1, 2, 3, 4, 5, 6]) (0x1000 + j))
      ∧ (∀ a, (∀ j, j < 4 → a ≠ (0x2000 + j) % 2 ^ 64) →
        (memcpy (bytes_at 0x1000 [1, 2, 3, 4, 5, 6]) 0x2000 0x1000 4).2 a
          = bytes_at 0x1000 [1, 2, 3, 4, 5, 6] a) :=
  ⟨⟨by decide, fun j k hj hk => by omega⟩, by decide, by decide,
    memcpy_copies (bytes_at 0x1000 [1, 2, 3, 4, 5, 6]) 0x2000 0x1000 4 (by decide)
      (fun j k hj hk => by omega)⟩

/-! ## Cache maintenance over a region -/

theorem invalidate_loop_run (L e : Nat) (m fuel a : Nat) (hL : 0 < L)
    (hlo : a + m * L ≤ e) (hhi : e < a + (m + 1) * L) (hwrap : a + (m + 1) * L < 2 ^ 64)
    (hfuel : m + 1 < fuel) :
    invalidate_loop L e fuel a = some ((List.range (m + 1)).map (fun k => a + k * L)) := by
  induction m generalizing fuel a with
  | zero =>
    cases fuel with
    | zero => omega
    | succ fuel =>
      cases fuel with
      | zero => omega
      | succ fuel =>
        have h1 : a ≤ e := by omega
        have e1 : (a + L) % 2 ^ 64 = a + L := Nat.mod_eq_of_lt (by omega)
        have h2 : ¬ a + L ≤ e := by omega
        rw [invalidate_loop]
        simp only [h1, if_true, e1]
        rw [invalidate_loop]
        simp only [h2, if_false]
        simp [List.range_succ]
  | succ m ih =>
    cases fuel with
    | zero => omega
    | succ fuel =>
      have hmul : (m + 1) * L = m * L + L := by ring
      have hmul2 : (m + 1 + 1) * L = m * L + L + L := by ring
      have h1 : a ≤ e := by
        have : 0 ≤ (m + 1) * L := Nat.zero_le _
        omega
      have e1 : (a + L) % 2 ^ 64 = a + L := by
        apply Nat.mod_eq_of_lt
        have : 0 ≤ m * L := Nat.zero_le _
        omega
      rw [invalidate_loop]
      simp only [h1, if_true, e1]
      rw [ih fuel (a + L) (by omega) (by omega) (by omega) (by omega)]
      simp only [Option.map_some']
      congr 1
      rw [List.range_succ_eq_map (m + 1), List.map_cons, List.map_map]
      congr 1
      · simp
      · apply List.map_congr_left
        intro k _
        simp only [Function.comp, Nat.succ_eq_add_one]
        ring

theorem aligned_region_is_covered (L addr length p : Nat) (hL : 0 < L) (halign : addr % L = 0)
    (hwrap : addr + length + L < 2 ^ 64) (hp1 : addr ≤ p) (hp2 : p < addr + length) :
    ∃ lines, __invalidate_cache_region L (length / L + 2) addr length = some lines
      ∧ ∃ a ∈ lines, a / L = p / L := by
  have hdm := Nat.div_add_mod length L
  have hml := Nat.mod_lt length hL
  have hmul : L * (length / L) = length / L * L := Nat.mul_comm _ _
  have hmul2 : (length / L + 1) * L = length / L * L + L := by ring
  refine ⟨(List.range (length / L + 1)).map (fun k => addr + k * L), ?_, ?_⟩
  · unfold __invalidate_cache_region
    rw [Nat.mod_eq_of_lt (by omega)]
    exact invalidate_loop_run L (addr + length) (length / L) _ addr hL (by omega) (by omega)
      (by omega) (by omega)
  · have hk : (p - addr) / L ≤ length / L := Nat.div_le_div_right (by omega)
    refine ⟨addr + (p - addr) / L * L, ?_, ?_⟩
    · rw [List.mem_map]
      exact ⟨(p - addr) / L, List.mem_range.mpr (by omega), rfl⟩
    · obtain ⟨q, hq⟩ : ∃ q, addr = L * q := ⟨addr / L, by
        have := Nat.div_add_mod addr L
        omega⟩
      have hpd : p = L * q + (p - addr) := by omega
      rw [hq, Nat.mul_comm ((p - L * q) / L) L, ← Nat.mul_add, Nat.mul_div_cancel_left _ hL]
      conv_rhs => rw [hpd, hq, Nat.mul_add_div hL]

/-- C25 (code at the failing input): with 64-byte cache lines, for the region of 16 bytes at
`0x1038`, which lies in the lines of `0x1000` and of `0x1040`, `__invalidate_cache_region`
hands only `0x1038` to `__invalidate_cache_line`; the byte at `0x1040` is in the region and
its line is not invalidated. -/
theorem invalidate_region_misses_last_line :
    __dcache_line_bytes 0 0x84448004 = 64
      ∧ __invalidate_cache_region 64 4 0x1038 0x10 = some [0x1038]
      ∧ (0x1038 ≤ 0x1040 ∧ 0x1040 < 0x1038 + 0x10)
      ∧ ¬ ∃ a ∈ [0x1038], a / 64 = 0x1040 / 64 := by
  decide

end Bfstub
